import Mathlib

set_option maxHeartbeats 1000000
set_option maxRecDepth 8000

/-!
Verification development for the resume/job-match pipeline in src/app.py.

Python strings are modelled as lists of Unicode code points (`Str`); byte
strings as lists of byte values (`List Nat`).  Machine-level behaviour of the
standard library functions the source calls (str.replace, str.strip,
re.search with the pattern "first opening brace, then anything greedily, then
a closing brace", json.loads, json serialisation, bytes.decode with utf-8) is
embedded explicitly below, translated from the source's use of them.
-/

/-- Python strings: sequences of Unicode code points. -/
abbrev Str := List Nat

/-- Code points of a Lean string literal; used to transcribe the Python string
literals appearing in src/app.py. -/
def lit (s : String) : Str := s.data.map Char.toNat

/-- Boolean leading-segment test: `pfx p s` is true when `p` is an initial
segment of `s` (the test str.replace performs at each scan position). -/
def pfx : Str → Str → Bool
  | [], _ => true
  | _ :: _, [] => false
  | p :: ps, c :: cs => p = c && pfx ps cs

/-- One left-to-right scan of Python str.replace, fuelled by the length of the
scanned text (each step consumes at least one character, so fuel equal to the
length suffices; fuel 0 is never reached on inputs of length at most the fuel). -/
def replaceGoF : Nat → Str → Str → Str → Str
  | 0, _, _, _ => []
  | f + 1, pat, new, s =>
    match pat, s with
    | [], _ => s
    | _ :: _, [] => []
    | p :: ps, c :: cs =>
      if pfx (p :: ps) (c :: cs) then
        new ++ replaceGoF f (p :: ps) new ((c :: cs).drop (p :: ps).length)
      else
        c :: replaceGoF f (p :: ps) new cs

/-- Python `s.replace(pat, new)`: replace all non-overlapping occurrences of
`pat`, scanning left to right (line 26 of src/app.py uses it twice).  An empty
pattern inserts `new` between all characters, as in Python. -/
def pyReplace (s pat new : Str) : Str :=
  if pat.isEmpty then new ++ (s.map (fun c => c :: new)).flatten
  else replaceGoF s.length pat new s

/-- The code points Python `str.strip()` removes (the `str.isspace` set). -/
def isPySpace (c : Nat) : Bool :=
  c = 32 || (9 ≤ c && c ≤ 13) || (28 ≤ c && c ≤ 31) || c = 133 || c = 160 ||
  c = 5760 || (8192 ≤ c && c ≤ 8202) || c = 8232 || c = 8233 || c = 8239 ||
  c = 8287 || c = 12288

/-- Python `s.strip()`: remove leading and trailing whitespace. -/
def pyStrip (s : Str) : Str :=
  ((s.dropWhile isPySpace).reverse.dropWhile isPySpace).reverse

/-- Greedy tail of the regex used at line 27: after the opening brace, the
"match anything greedily, then a closing brace" part matches up to and
including the LAST closing brace of the remaining text (greedy star with
backtracking), or fails if there is none. -/
def greedyToLastClose : Str → Option Str
  | [] => none
  | c :: rest =>
    match greedyToLastClose rest with
    | some m => some (c :: m)
    | none => if c = 125 then some [c] else none

/-- `re.search` of the pattern "an opening brace, then anything spanning
newlines greedily, then a closing brace" (line 27): try each start position
left to right; at an opening brace, greedily match to the last closing brace
of the rest; otherwise advance. -/
def reSearchFirstLast : Str → Option Str
  | [] => none
  | c :: cs =>
    if c = 123 then
      match greedyToLastClose cs with
      | some m => some (123 :: m)
      | none => reSearchFirstLast cs
    else reSearchFirstLast cs

/-- Index of the first opening brace, following the spec wording "substring
starting at the first opening brace". -/
def firstBraceIdx : Str → Option Nat
  | [] => none
  | c :: cs =>
    if c = 123 then some 0 else (firstBraceIdx cs).map (· + 1)

/-- Index of the last closing brace, following the spec wording "ending at the
last closing brace". -/
def lastCloseBraceIdx : Str → Option Nat
  | [] => none
  | c :: cs =>
    match lastCloseBraceIdx cs with
    | some k => some (k + 1)
    | none => if c = 125 then some 0 else none

/-- Spec-side description of the extracted span (section 4.4 step 3): the
substring starting at the first opening brace and ending at the last closing
brace, when the former precedes the latter. -/
def specBraceSpan (s : Str) : Option Str :=
  match firstBraceIdx s, lastCloseBraceIdx s with
  | some i, some j => if i < j then some (List.take (j - i + 1) (List.drop i s)) else none
  | _, _ => none

/-- JSON values as json.loads produces them, with objects as key/value
sequences in textual order (Python dicts preserve insertion order) and numbers
restricted to integers (floating point is outside the model). -/
inductive Json where
  | null
  | jbool (b : Bool)
  | jnum (n : Int)
  | jstr (s : Str)
  | jarr (xs : List Json)
  | jobj (fs : List (Str × Json))

/-- JSON inter-token whitespace accepted by json.loads. -/
def isJWs (c : Nat) : Bool := c = 32 || c = 9 || c = 10 || c = 13

def skipWs (s : Str) : Str := s.dropWhile isJWs

def isDig (c : Nat) : Bool := 48 ≤ c && c ≤ 57

/-- Value of a hexadecimal digit code point. -/
def hexVal (c : Nat) : Option Nat :=
  if 48 ≤ c && c ≤ 57 then some (c - 48)
  else if 97 ≤ c && c ≤ 102 then some (c - 87)
  else if 65 ≤ c && c ≤ 70 then some (c - 55)
  else none

/-- json.loads string scanner, entered after the opening quote: returns the
decoded code points and the text after the closing quote.  Handles the JSON
escapes and rejects raw control characters (strict mode). -/
def parseStr : Str → Option (Str × Str)
  | [] => none
  | c :: cs =>
    if c = 34 then some ([], cs)
    else if c = 92 then
      match cs with
      | [] => none
      | e :: cs' =>
        if e = 34 then (parseStr cs').map (fun p => (34 :: p.1, p.2))
        else if e = 92 then (parseStr cs').map (fun p => (92 :: p.1, p.2))
        else if e = 47 then (parseStr cs').map (fun p => (47 :: p.1, p.2))
        else if e = 98 then (parseStr cs').map (fun p => (8 :: p.1, p.2))
        else if e = 102 then (parseStr cs').map (fun p => (12 :: p.1, p.2))
        else if e = 110 then (parseStr cs').map (fun p => (10 :: p.1, p.2))
        else if e = 114 then (parseStr cs').map (fun p => (13 :: p.1, p.2))
        else if e = 116 then (parseStr cs').map (fun p => (9 :: p.1, p.2))
        else if e = 117 then
          match cs' with
          | h1 :: h2 :: h3 :: h4 :: cs'' =>
            match hexVal h1, hexVal h2, hexVal h3, hexVal h4 with
            | some a, some b, some c2, some d =>
              (parseStr cs'').map (fun p => ((a * 4096 + b * 256 + c2 * 16 + d) :: p.1, p.2))
            | _, _, _, _ => none
          | _ => none
        else none
    else if c < 32 then none
    else (parseStr cs).map (fun p => (c :: p.1, p.2))

/-- Numeric value of a run of decimal digit code points. -/
def digitsVal (ds : Str) : Nat := ds.foldl (fun acc c => acc * 10 + (c - 48)) 0

/-- json.loads unsigned integer scanner: a nonempty digit run with no leading
zero; a following dot or exponent letter would make a float, which is outside
the model (such inputs are rejected rather than parsed). -/
def parseNumNat (s : Str) : Option (Nat × Str) :=
  let ds := s.takeWhile isDig
  let r := s.dropWhile isDig
  if ds.isEmpty then none
  else if ds.head? = some 48 ∧ ds.length ≠ 1 then none
  else
    match r with
    | 46 :: _ => none
    | 101 :: _ => none
    | 69 :: _ => none
    | _ => some (digitsVal ds, r)

/-- json.loads number scanner (integers): optional minus sign, then digits. -/
def parseNum (s : Str) : Option (Int × Str) :=
  match s with
  | 45 :: s1 => (parseNumNat s1).map (fun p => (-(p.1 : Int), p.2))
  | s1 => (parseNumNat s1).map (fun p => ((p.1 : Int), p.2))

/-- Intermediate results of the recursive-descent json.loads scanner. -/
inductive PRes where
  | v (j : Json)
  | items (xs : List Json)
  | fields (fs : List (Str × Json))

/-- Scanner modes: a value, the inside of an array after the opening bracket,
the continuation of an array after a value, and the same two for objects. -/
inductive PMode where
  | val
  | arrBody
  | arrMore
  | objBody
  | objMore

/-- Fuelled recursive-descent scanner for json.loads.  Each recursive call
spends one unit of fuel; any fuel at least the structural size of the parsed
value suffices. -/
def parseF : Nat → PMode → Str → Option (PRes × Str)
  | 0, _, _ => none
  | f + 1, mode, s =>
    match mode with
    | PMode.val =>
      match skipWs s with
      | [] => none
      | c :: cs =>
        if c = 123 then
          match parseF f PMode.objBody cs with
          | some (PRes.fields fs, r) => some (PRes.v (Json.jobj fs), r)
          | _ => none
        else if c = 91 then
          match parseF f PMode.arrBody cs with
          | some (PRes.items xs, r) => some (PRes.v (Json.jarr xs), r)
          | _ => none
        else if c = 34 then
          match parseStr cs with
          | some (st, r) => some (PRes.v (Json.jstr st), r)
          | none => none
        else if c = 116 then
          match cs with
          | 114 :: 117 :: 101 :: r => some (PRes.v (Json.jbool true), r)
          | _ => none
        else if c = 102 then
          match cs with
          | 97 :: 108 :: 115 :: 101 :: r => some (PRes.v (Json.jbool false), r)
          | _ => none
        else if c = 110 then
          match cs with
          | 117 :: 108 :: 108 :: r => some (PRes.v Json.null, r)
          | _ => none
        else if c = 45 ∨ isDig c then
          match parseNum (c :: cs) with
          | some (n, r) => some (PRes.v (Json.jnum n), r)
          | none => none
        else none
    | PMode.arrBody =>
      match skipWs s with
      | [] => none
      | c :: cs =>
        if c = 93 then some (PRes.items [], cs)
        else
          match parseF f PMode.val (c :: cs) with
          | some (PRes.v x, r1) =>
            match parseF f PMode.arrMore r1 with
            | some (PRes.items xs, r2) => some (PRes.items (x :: xs), r2)
            | _ => none
          | _ => none
    | PMode.arrMore =>
      match skipWs s with
      | [] => none
      | c :: cs =>
        if c = 93 then some (PRes.items [], cs)
        else if c = 44 then
          match parseF f PMode.val cs with
          | some (PRes.v x, r1) =>
            match parseF f PMode.arrMore r1 with
            | some (PRes.items xs, r2) => some (PRes.items (x :: xs), r2)
            | _ => none
          | _ => none
        else none
    | PMode.objBody =>
      match skipWs s with
      | [] => none
      | c :: cs =>
        if c = 125 then some (PRes.fields [], cs)
        else if c = 34 then
          match parseStr cs with
          | some (k, r1) =>
            match skipWs r1 with
            | 58 :: r2 =>
              match parseF f PMode.val r2 with
              | some (PRes.v x, r3) =>
                match parseF f PMode.objMore r3 with
                | some (PRes.fields fs, r4) => some (PRes.fields ((k, x) :: fs), r4)
                | _ => none
              | _ => none
            | _ => none
          | none => none
        else none
    | PMode.objMore =>
      match skipWs s with
      | [] => none
      | c :: cs =>
        if c = 125 then some (PRes.fields [], cs)
        else if c = 44 then
          match skipWs cs with
          | 34 :: r0 =>
            match parseStr r0 with
            | some (k, r1) =>
              match skipWs r1 with
              | 58 :: r2 =>
                match parseF f PMode.val r2 with
                | some (PRes.v x, r3) =>
                  match parseF f PMode.objMore r3 with
                  | some (PRes.fields fs, r4) => some (PRes.fields ((k, x) :: fs), r4)
                  | _ => none
                | _ => none
              | _ => none
            | none => none
          | _ => none
        else none

/-- json.loads: scan one value, then require only whitespace to remain.  The
fuel bound is sufficient for any value serialised into the input. -/
def jsonLoads (s : Str) : Option Json :=
  match parseF (2 * s.length + 2) PMode.val s with
  | some (PRes.v j, r) => if (skipWs r).isEmpty then some j else none
  | _ => none

/-- The two distinguishable failures of safe_json_parse: the ValueError raised
at line 29 when the regex finds nothing, and the json.JSONDecodeError raised by
json.loads at line 30, which carries the offending document in its `doc`
attribute. -/
inductive ParseErr where
  | noJsonFound
  | jsonDecode (doc : Str)

/-- Line 26: strip the code-fence markers, then surrounding whitespace. -/
def cleanedOf (text : Str) : Str :=
  pyStrip (pyReplace (pyReplace text (lit "```json") []) (lit "```") [])

/-- safe_json_parse (lines 21-30 of src/app.py). -/
def safe_json_parse (text : Str) : Except ParseErr Json :=
  match reSearchFirstLast (cleanedOf text) with
  | none => Except.error ParseErr.noJsonFound
  | some sub =>
    match jsonLoads sub with
    | some j => Except.ok j
    | none => Except.error (ParseErr.jsonDecode sub)

/-- Lowercase hexadecimal digit for a value below 16. -/
def hexDigitChar (v : Nat) : Nat := if v < 10 then 48 + v else 87 + v

/-- JSON string escaping of one code point: escape the quote and the
backslash, render control characters as a four-digit hex escape, and keep
everything else literal. -/
def escapeChar (c : Nat) : Str :=
  if c = 34 then [92, 34]
  else if c = 92 then [92, 92]
  else if c < 32 then [92, 117, 48, 48, hexDigitChar (c / 16), hexDigitChar (c % 16)]
  else [c]

def serStrBody (s : Str) : Str := (s.map escapeChar).flatten

/-- Serialised JSON string: quoted, escaped body. -/
def serStr (s : Str) : Str := 34 :: (serStrBody s ++ [34])

/-- Decimal digits of a natural number, most significant first, fuelled (fuel
above the number suffices). -/
def natDigitsF : Nat → Nat → Str
  | 0, _ => []
  | f + 1, n => if n < 10 then [48 + n] else natDigitsF f (n / 10) ++ [48 + n % 10]

def natDigits (n : Nat) : Str := natDigitsF (n + 1) n

/-- Serialised JSON integer. -/
def serNum (n : Int) : Str :=
  if n < 0 then 45 :: natDigits n.natAbs else natDigits n.toNat

mutual
/-- Canonical compact serialisation of a JSON value (the form in which a
well-formed object is embedded in the model output for the round-trip claim). -/
def serVal : Json → Str
  | Json.null => lit "null"
  | Json.jbool true => lit "true"
  | Json.jbool false => lit "false"
  | Json.jnum n => serNum n
  | Json.jstr s => serStr s
  | Json.jarr xs => 91 :: (serArrIn xs ++ [93])
  | Json.jobj fs => 123 :: (serObjIn fs ++ [125])
def serArrIn : List Json → Str
  | [] => []
  | x :: xs => serVal x ++ serArrInMore xs
def serArrInMore : List Json → Str
  | [] => []
  | x :: xs => 44 :: (serVal x ++ serArrInMore xs)
def serObjIn : List (Str × Json) → Str
  | [] => []
  | (k, v) :: fs => serStr k ++ (58 :: (serVal v ++ serObjInMore fs))
def serObjInMore : List (Str × Json) → Str
  | [] => []
  | (k, v) :: fs => 44 :: (serStr k ++ (58 :: (serVal v ++ serObjInMore fs)))
end

mutual
/-- Structural size of a JSON value, used as a fuel bound for the scanner. -/
def sizeJ : Json → Nat
  | Json.null => 1
  | Json.jbool _ => 1
  | Json.jnum _ => 1
  | Json.jstr _ => 1
  | Json.jarr xs => 2 + sizeL xs
  | Json.jobj fs => 2 + sizeF fs
def sizeL : List Json → Nat
  | [] => 0
  | x :: xs => 1 + sizeJ x + sizeL xs
def sizeF : List (Str × Json) → Nat
  | [] => 0
  | (_, v) :: fs => 1 + sizeJ v + sizeF fs
end

/-- A serialised number is followed by text that cannot extend it: nothing, or
a character that is not a digit, a dot, or an exponent letter. -/
def numBoundaryB (rest : Str) : Bool :=
  match rest with
  | [] => true
  | c :: _ => !isDig c && c ≠ 46 && c ≠ 101 && c ≠ 69

/-! UTF-8, for the text-upload extraction path. -/

def isCont (b : Nat) : Bool := 128 ≤ b && b < 192

/-- One step of strict UTF-8 decoding as Python bytes.decode performs it:
read one scalar value from the byte list, rejecting stray continuation bytes,
overlong forms, surrogates and out-of-range values. -/
def utf8DecodeOne (b : Nat) (bs : List Nat) : Option (Nat × List Nat) :=
  if b < 128 then some (b, bs)
  else if b < 194 then none
  else if b < 224 then
    match bs with
    | b1 :: bs' =>
      if isCont b1 then some ((b - 192) * 64 + (b1 - 128), bs') else none
    | [] => none
  else if b < 240 then
    match bs with
    | b1 :: b2 :: bs' =>
      if isCont b1 && isCont b2 then
        let c := (b - 224) * 4096 + (b1 - 128) * 64 + (b2 - 128)
        if c < 2048 then none
        else if 55296 ≤ c && c < 57344 then none
        else some (c, bs')
      else none
    | _ => none
  else if b < 245 then
    match bs with
    | b1 :: b2 :: b3 :: bs' =>
      if isCont b1 && isCont b2 && isCont b3 then
        let c := (b - 240) * 262144 + (b1 - 128) * 4096 + (b2 - 128) * 64 + (b3 - 128)
        if c < 65536 then none
        else if 1114112 ≤ c then none
        else some (c, bs')
      else none
    | _ => none
  else none

/-- Fuelled strict UTF-8 decoding loop; each step consumes at least the lead
byte, so fuel above the byte count suffices. -/
def utf8DecodeF : Nat → List Nat → Option Str
  | 0, _ => none
  | _ + 1, [] => some []
  | f + 1, b :: bs =>
    match utf8DecodeOne b bs with
    | some (c, rest) => (utf8DecodeF f rest).map (c :: ·)
    | none => none

/-- Python bytes.decode("utf-8"): strict decoding of the whole byte string. -/
def utf8Decode (bs : List Nat) : Option Str := utf8DecodeF (bs.length + 1) bs

/-- UTF-8 encoding of one Unicode scalar value. -/
def utf8Encode1 (c : Nat) : List Nat :=
  if c < 128 then [c]
  else if c < 2048 then [192 + c / 64, 128 + c % 64]
  else if c < 65536 then [224 + c / 4096, 128 + c / 64 % 64, 128 + c % 64]
  else [240 + c / 262144, 128 + c / 4096 % 64, 128 + c / 64 % 64, 128 + c % 64]

def utf8Encode (s : Str) : List Nat := (s.map utf8Encode1).flatten

/-- Unicode scalar values: in range and not a surrogate. -/
def ValidScalar (c : Nat) : Prop := c < 1114112 ∧ ¬(55296 ≤ c ∧ c < 57344)

instance (c : Nat) : Decidable (ValidScalar c) := by
  unfold ValidScalar; infer_instance

/-! Document extraction (lines 34-48). -/

/-- Exceptions of the extraction paths.  `extractionError` is the typed error
the spec prescribes; the code never constructs it — it is included so that the
spec's failure policy can be stated against the code. -/
inductive PyExc where
  | unicodeDecodeError
  | fallbackEngineError
  | extractionError
  deriving DecidableEq

/-- extract_text_from_txt (lines 47-48): file.read().decode("utf-8").strip().
A decode failure raises and is not caught anywhere on this path. -/
def extract_text_from_txt (fileBytes : List Nat) : Except PyExc Str :=
  match utf8Decode fileBytes with
  | some s => Except.ok (pyStrip s)
  | none => Except.error PyExc.unicodeDecodeError

/-- Behaviour of the two external PDF engines on one uploaded file: the page
texts the primary engine (pdfplumber) yields before any error (None from
page.extract_text is modelled as `none`), whether the primary path raises,
the per-page texts of the fallback engine (fitz), and whether the fallback
open raises. -/
structure PdfFile where
  primaryPages : List (Option Str)
  primaryRaises : Bool
  fallbackPages : List Str
  fallbackRaises : Bool

/-- Accumulation of `page.extract_text() or ""` over the yielded pages. -/
def joinPages (ps : List (Option Str)) : Str := (ps.map (fun o => o.getD [])).flatten

/-- extract_text_from_pdf (lines 34-44): accumulate primary page text; on any
primary exception run the fallback on the same file object and keep appending
to the text already accumulated; a fallback exception is not caught. -/
def extract_text_from_pdf (f : PdfFile) : Except PyExc Str :=
  let primText := joinPages f.primaryPages
  if f.primaryRaises then
    if f.fallbackRaises then Except.error PyExc.fallbackEngineError
    else Except.ok (pyStrip (primText ++ f.fallbackPages.flatten))
  else Except.ok (pyStrip primText)

/-! Prompt construction (lines 53-75). -/

/-- Template text before the resume slot. -/
def promptHead : Str :=
  lit "\nSTRICT RULES:\n- Return ONLY valid JSON\n- Start with \x7b and end with \x7d\n- No markdown\n- No explanation\n\nFORMAT:\n\x7b\n  \"match_score\": 0-100,\n  \"matched_skills\": [],\n  \"missing_skills\": [],\n  \"experience_fit\": \"LOW | MEDIUM | HIGH\",\n  \"recommendation\": \"APPLY | SKIP\",\n  \"summary\": \"\"\n\x7d\n\nRESUME:\n\"\"\""

/-- Template text between the resume and job-description slots. -/
def promptMid : Str := lit "\"\"\"\n\nJOB DESCRIPTION:\n\"\"\""

/-- Template text after the job-description slot. -/
def promptTail : Str := lit "\"\"\"\n"

/-- The prompt built inside analyze_resume_vs_jd: the template with each input
sliced to its first 4000 characters. -/
def build_prompt (resume_text jd_text : Str) : Str :=
  promptHead ++ List.take 4000 resume_text ++ promptMid ++ List.take 4000 jd_text ++ promptTail

/-! Webhook dispatch (lines 165-177). -/

/-- Outcomes of the single requests.post call. -/
inductive PostOutcome where
  | ok (status : Nat)
  | readTimeout
  | connectTimeout
  | connectionError
  | otherRequestException
  deriving DecidableEq

inductive DispatchResult where
  | success
  | hardFailureStop
  deriving DecidableEq

/-- One dispatch: the reported result and the number of requests.post calls. -/
structure DispatchRun where
  result : DispatchResult
  attempts : Nat
  deriving DecidableEq

/-- The try/except around requests.post: a normal response and a ReadTimeout
both report success; every RequestException other than ReadTimeout reports
failure and stops; exactly one call is made. -/
def dispatch_to_n8n (o : PostOutcome) : DispatchRun :=
  match o with
  | PostOutcome.ok _ => { result := DispatchResult.success, attempts := 1 }
  | PostOutcome.readTimeout => { result := DispatchResult.success, attempts := 1 }
  | PostOutcome.connectTimeout => { result := DispatchResult.hardFailureStop, attempts := 1 }
  | PostOutcome.connectionError => { result := DispatchResult.hardFailureStop, attempts := 1 }
  | PostOutcome.otherRequestException => { result := DispatchResult.hardFailureStop, attempts := 1 }

/-! Configuration and the per-press pipeline run (lines 12-17 and 119-177). -/

/-- Environment-sourced configuration (lines 14-15): os.getenv returns None
when a variable is missing; the code performs no check on either value. -/
structure Config where
  geminiApiKey : Option Str
  n8nWebhookUrl : Option Str

inductive RunEvent where
  | extraction
  | modelCall
  | jsonParse
  | dispatchCall
  deriving DecidableEq

inductive RunOutcome where
  | completed
  | extractionRaw
  | parseFailedStop
  | dispatchFailedStop
  | configFailFast
  deriving DecidableEq

/-- One button press with a text resume: extraction, model call, parse of the
stripped response, dispatch.  `modelRaw` is the external model's response
text; `net` is the network outcome of the post when a URL is configured —
posting to a missing (None) URL raises MissingSchema, a RequestException.
`configFailFast` is the outcome the spec prescribes for missing
configuration; no code path produces it. -/
def runPipeline (cfg : Config) (resumeBytes : List Nat) (modelRaw : Str)
    (net : PostOutcome) : List RunEvent × RunOutcome :=
  match extract_text_from_txt resumeBytes with
  | Except.error _ => ([RunEvent.extraction], RunOutcome.extractionRaw)
  | Except.ok _ =>
    match safe_json_parse (pyStrip modelRaw) with
    | Except.error _ =>
      ([RunEvent.extraction, RunEvent.modelCall, RunEvent.jsonParse], RunOutcome.parseFailedStop)
    | Except.ok _ =>
      let effectiveNet :=
        match cfg.n8nWebhookUrl with
        | none => PostOutcome.otherRequestException
        | some _ => net
      match (dispatch_to_n8n effectiveNet).result with
      | DispatchResult.success =>
        ([RunEvent.extraction, RunEvent.modelCall, RunEvent.jsonParse, RunEvent.dispatchCall],
          RunOutcome.completed)
      | DispatchResult.hardFailureStop =>
        ([RunEvent.extraction, RunEvent.modelCall, RunEvent.jsonParse, RunEvent.dispatchCall],
          RunOutcome.dispatchFailedStop)

/-! Basic lemmas about the prefix test and the str.replace scan. -/

theorem pfx_length_le : ∀ P s : Str, pfx P s = true → P.length ≤ s.length
  | [], _, _ => by simp
  | _ :: _, [], h => by simp [pfx] at h
  | p :: ps, c :: cs, h => by
    simp only [pfx, Bool.and_eq_true] at h
    have := pfx_length_le ps cs h.2
    simp [List.length_cons]
    omega

theorem pfx_append_left : ∀ P a x : Str, pfx P a = true → pfx P (a ++ x) = true
  | [], _, _, _ => by simp [pfx]
  | _ :: _, [], _, h => by simp [pfx] at h
  | p :: ps, c :: cs, x, h => by
    simp only [pfx, Bool.and_eq_true] at h ⊢
    exact ⟨h.1, pfx_append_left ps cs x h.2⟩

theorem pfx_restrict : ∀ P a x : Str, pfx P (a ++ x) = true → P.length ≤ a.length →
    pfx P a = true
  | [], _, _, _, _ => by simp [pfx]
  | p :: ps, [], x, h, hl => by simp at hl
  | p :: ps, c :: cs, x, h, hl => by
    simp only [List.cons_append, pfx, Bool.and_eq_true] at h ⊢
    refine ⟨h.1, pfx_restrict ps cs x h.2 ?_⟩
    simp at hl
    omega

theorem pfx_cross : ∀ P a : Str, ∀ d : Nat, ∀ y : Str,
    pfx P (a ++ d :: y) = true → a.length < P.length → d ∈ P
  | [], a, d, y, h, hl => by simp at hl
  | p :: ps, [], d, y, h, hl => by
    simp only [List.nil_append, pfx, Bool.and_eq_true, decide_eq_true_eq] at h
    simp [h.1]
  | p :: ps, c :: cs, d, y, h, hl => by
    simp only [List.cons_append, pfx, Bool.and_eq_true] at h
    have : d ∈ ps := pfx_cross ps cs d y h.2 (by simp at hl; omega)
    simp [this]

theorem replaceGoF_fuel : ∀ f g : Nat, ∀ pat new s : Str, s.length ≤ f → s.length ≤ g →
    replaceGoF f pat new s = replaceGoF g pat new s := by
  intro f
  induction f with
  | zero =>
    intro g pat new s hf hg
    have : s = [] := List.length_eq_zero.mp (by omega)
    subst this
    cases g with
    | zero => rfl
    | succ g => cases pat <;> simp [replaceGoF]
  | succ f ih =>
    intro g pat new s hf hg
    cases s with
    | nil =>
      cases g with
      | zero => cases pat <;> simp [replaceGoF]
      | succ g => cases pat <;> simp [replaceGoF]
    | cons c cs =>
      cases g with
      | zero => simp at hg
      | succ g =>
        cases pat with
        | nil => simp [replaceGoF]
        | cons p ps =>
          simp only [replaceGoF]
          by_cases hp : pfx (p :: ps) (c :: cs) = true
          · rw [if_pos hp, if_pos hp]
            have hlen : ((c :: cs).drop (p :: ps).length).length ≤ f ∧
                ((c :: cs).drop (p :: ps).length).length ≤ g := by
              simp [List.length_drop]
              simp at hf hg
              constructor <;> omega
            rw [ih g (p :: ps) new _ hlen.1 hlen.2]
          · rw [if_neg hp, if_neg hp]
            have : cs.length ≤ f ∧ cs.length ≤ g := by simp at hf hg; omega
            rw [ih g (p :: ps) new cs this.1 this.2]

theorem pyReplace_nil (pat new : Str) : pyReplace [] pat new ≠ [] → pat = [] := by
  intro h
  cases pat with
  | nil => rfl
  | cons p ps => simp [pyReplace, replaceGoF] at h

theorem pyReplace_nil_eq (p : Nat) (ps new : Str) : pyReplace [] (p :: ps) new = [] := by
  simp [pyReplace, replaceGoF]

theorem pyReplace_cons (p : Nat) (ps new : Str) (c : Nat) (cs : Str) :
    pyReplace (c :: cs) (p :: ps) new =
      if pfx (p :: ps) (c :: cs) then
        new ++ pyReplace ((c :: cs).drop (p :: ps).length) (p :: ps) new
      else c :: pyReplace cs (p :: ps) new := by
  have hne : (p :: ps).isEmpty = false := by simp
  simp only [pyReplace, hne, Bool.false_eq_true, if_false]
  have step : replaceGoF (c :: cs).length (p :: ps) new (c :: cs) =
      if pfx (p :: ps) (c :: cs) then
        new ++ replaceGoF cs.length (p :: ps) new ((c :: cs).drop (p :: ps).length)
      else c :: replaceGoF cs.length (p :: ps) new cs := by
    simp only [List.length_cons, replaceGoF]
  rw [step]
  by_cases hp : pfx (p :: ps) (c :: cs) = true
  · rw [if_pos hp, if_pos hp]
    congr 1
    exact replaceGoF_fuel cs.length ((c :: cs).drop (p :: ps).length).length (p :: ps) new _
      (by simp only [List.length_drop, List.length_cons]; omega) (le_refl _)
  · rw [if_neg hp, if_neg hp]

/-- No replacement can begin inside a block whose characters all differ from
the head of the pattern: the scan copies the block verbatim. -/
theorem pyReplace_skip_block (p : Nat) (ps new : Str) :
    ∀ s b : Str, p ∉ s → pyReplace (s ++ b) (p :: ps) new = s ++ pyReplace b (p :: ps) new := by
  intro s
  induction s with
  | nil => intro b _; simp
  | cons c s' ih =>
    intro b hmem
    have hcp : p ≠ c := fun h => hmem (by simp [h])
    have hmem' : p ∉ s' := fun h => hmem (List.mem_cons_of_mem _ h)
    have hpfx : pfx (p :: ps) (c :: (s' ++ b)) = false := by
      simp [pfx, hcp]
    rw [List.cons_append, pyReplace_cons, if_neg (by simp [hpfx]), ih b hmem']
    simp

/-- Factorisation of str.replace over a protected block: if the pattern's head
never occurs in the block, the block starts with an opening brace, and the
pattern contains no opening brace, then replacement acts independently on the
two sides. -/
theorem pyReplace_factor (p : Nat) (ps : Str) (s : Str)
    (hhead : ∃ t, s = 123 :: t) (hnob : (123 : Nat) ∉ p :: ps) (hnp : p ∉ s) :
    ∀ n : Nat, ∀ a b : Str, a.length ≤ n →
      pyReplace (a ++ s ++ b) (p :: ps) [] =
        pyReplace a (p :: ps) [] ++ s ++ pyReplace b (p :: ps) [] := by
  intro n
  induction n with
  | zero =>
    intro a b ha
    have : a = [] := List.length_eq_zero.mp (by omega)
    subst this
    simp only [List.nil_append]
    rw [pyReplace_skip_block p ps [] s b hnp, pyReplace_nil_eq]
    simp
  | succ n ih =>
    intro a b ha
    cases a with
    | nil =>
      simp only [List.nil_append]
      rw [pyReplace_skip_block p ps [] s b hnp, pyReplace_nil_eq]
      simp
    | cons c a' =>
      have hshape : (c :: a') ++ s ++ b = c :: (a' ++ (s ++ b)) := by simp
      by_cases hp : pfx (p :: ps) (c :: a') = true
      · have hfull : pfx (p :: ps) (c :: (a' ++ (s ++ b))) = true := by
          have := pfx_append_left (p :: ps) (c :: a') (s ++ b) hp
          simpa using this
        have hL : (p :: ps).length ≤ (c :: a').length := pfx_length_le _ _ hp
        rw [hshape, pyReplace_cons p ps [] c (a' ++ (s ++ b)), if_pos hfull,
          pyReplace_cons p ps [] c a', if_pos hp]
        have hdrop : (c :: (a' ++ (s ++ b))).drop (p :: ps).length =
            ((c :: a').drop (p :: ps).length) ++ s ++ b := by
          have : (c :: (a' ++ (s ++ b))) = (c :: a') ++ (s ++ b) := by simp
          rw [this, List.drop_append_eq_append_drop]
          have h0 : (p :: ps).length - (c :: a').length = 0 := by omega
          rw [h0]
          simp
        rw [hdrop]
        have hlen : ((c :: a').drop (p :: ps).length).length ≤ n := by
          simp only [List.length_drop, List.length_cons] at ha ⊢
          omega
        rw [ih _ b hlen]
        simp
      · have hp' : pfx (p :: ps) (c :: a') = false := by
          revert hp; cases pfx (p :: ps) (c :: a') <;> simp
        have hfull : pfx (p :: ps) (c :: (a' ++ (s ++ b))) = false := by
          by_contra hc
          have hc' : pfx (p :: ps) (c :: (a' ++ (s ++ b))) = true := by
            revert hc; cases pfx (p :: ps) (c :: (a' ++ (s ++ b))) <;> simp
          by_cases hl : (p :: ps).length ≤ (c :: a').length
          · refine hp (pfx_restrict (p :: ps) (c :: a') (s ++ b) ?_ hl)
            simpa using hc'
          · obtain ⟨t, hts⟩ := hhead
            subst hts
            have h123 : (123 : Nat) ∈ p :: ps := by
              refine pfx_cross (p :: ps) (c :: a') 123 (t ++ b) ?_ (by simp at hl ⊢; omega)
              simpa using hc'
            exact hnob h123
        rw [hshape, pyReplace_cons p ps [] c (a' ++ (s ++ b)), if_neg (by simp [hfull]),
          pyReplace_cons p ps [] c a', if_neg (by simp [hp'])]
        have hlen : a'.length ≤ n := by simp at ha; omega
        have := ih a' b hlen
        rw [show a' ++ (s ++ b) = a' ++ s ++ b by simp, this]
        simp

/-- Characters deleted by a replacement with an empty replacement string all
come from the original text. -/
theorem pyReplace_del_subset (p : Nat) (ps : Str) :
    ∀ n : Nat, ∀ s : Str, s.length ≤ n → ∀ c ∈ pyReplace s (p :: ps) [], c ∈ s := by
  intro n
  induction n with
  | zero =>
    intro s hs c hc
    have : s = [] := List.length_eq_zero.mp (by omega)
    subst this
    rw [pyReplace_nil_eq] at hc
    simp at hc
  | succ n ih =>
    intro s hs c hc
    cases s with
    | nil => rw [pyReplace_nil_eq] at hc; simp at hc
    | cons d cs =>
      rw [pyReplace_cons] at hc
      by_cases hp : pfx (p :: ps) (d :: cs) = true
      · rw [if_pos hp, List.nil_append] at hc
        have hlen : ((d :: cs).drop (p :: ps).length).length ≤ n := by
          simp only [List.length_drop, List.length_cons] at hs ⊢
          omega
        have := ih _ hlen c hc
        exact List.drop_subset _ _ this
      · rw [if_neg (by simp [hp])] at hc
        rcases List.mem_cons.mp hc with h | h
        · simp [h]
        · have hlen : cs.length ≤ n := by simp at hs; omega
          exact List.mem_cons_of_mem _ (ih cs hlen c h)

/-- dropWhile distributes over an append whose right part starts with a
character the predicate rejects. -/
theorem dropWhile_append_cons (q : Nat → Bool) :
    ∀ a : Str, ∀ h : Nat, ∀ b : Str, q h = false →
      List.dropWhile q (a ++ h :: b) = List.dropWhile q a ++ h :: b := by
  intro a
  induction a with
  | nil => intro h b hq; simp [List.dropWhile_cons, hq]
  | cons c a' ih =>
    intro h b hq
    by_cases hqc : q c = true
    · simp only [List.cons_append, List.dropWhile_cons, hqc, if_true]
      exact ih h b hq
    · have : q c = false := by revert hqc; cases q c <;> simp
      simp [List.dropWhile_cons, this]

/-- str.strip around a brace-delimited block only strips the two sides. -/
theorem pyStrip_factor (u m v : Str) :
    pyStrip (u ++ (123 :: (m ++ [125])) ++ v) =
      u.dropWhile isPySpace ++ (123 :: (m ++ [125])) ++
        (v.reverse.dropWhile isPySpace).reverse := by
  have h123 : isPySpace 123 = false := by decide
  have h125 : isPySpace 125 = false := by decide
  unfold pyStrip
  rw [show u ++ (123 :: (m ++ [125])) ++ v = u ++ 123 :: (m ++ 125 :: v) by simp]
  rw [dropWhile_append_cons _ _ _ _ h123]
  rw [show (u.dropWhile isPySpace ++ 123 :: (m ++ 125 :: v)).reverse =
    v.reverse ++ 125 :: (m.reverse ++ 123 :: (u.dropWhile isPySpace).reverse) by
      simp [List.reverse_append]]
  rw [dropWhile_append_cons _ _ _ _ h125]
  simp [List.reverse_append]

/-- A text without a closing brace has no match for the greedy tail. -/
theorem greedy_none : ∀ v : Str, (125 : Nat) ∉ v → greedyToLastClose v = none := by
  intro v
  induction v with
  | nil => intro _; rfl
  | cons c v' ih =>
    intro h
    have hc : c ≠ 125 := fun hc => h (by simp [hc])
    have h' : (125 : Nat) ∉ v' := fun hm => h (List.mem_cons_of_mem _ hm)
    simp [greedyToLastClose, ih h', hc]

/-- The greedy tail stops exactly at the last closing brace. -/
theorem greedy_last : ∀ m v : Str, (125 : Nat) ∉ v →
    greedyToLastClose (m ++ 125 :: v) = some (m ++ [125]) := by
  intro m
  induction m with
  | nil => intro v hv; simp [greedyToLastClose, greedy_none v hv]
  | cons c m' ih =>
    intro v hv
    have h := ih v hv
    simp only [List.cons_append, greedyToLastClose]
    rw [show greedyToLastClose (m'.append (125 :: v)) = some (m' ++ [125]) from h]

/-- re.search skips a brace-free leading segment and matches at the first
opening brace. -/
theorem reSearch_found : ∀ u : Str, (123 : Nat) ∉ u → ∀ t m : Str,
    greedyToLastClose t = some m → reSearchFirstLast (u ++ 123 :: t) = some (123 :: m) := by
  intro u
  induction u with
  | nil => intro _ t m hm; simp [reSearchFirstLast, hm]
  | cons c u' ih =>
    intro h t m hm
    have hc : c ≠ 123 := fun hc => h (by simp [hc])
    simp only [List.cons_append, reSearchFirstLast, if_neg hc]
    exact ih (fun hm' => h (List.mem_cons_of_mem _ hm')) t m hm

/-- The greedy tail, described through the index of the last closing brace. -/
theorem greedy_eq_lastIdx : ∀ s : Str,
    greedyToLastClose s = (lastCloseBraceIdx s).map (fun k => s.take (k + 1)) := by
  intro s
  induction s with
  | nil => rfl
  | cons c cs ih =>
    simp only [greedyToLastClose, lastCloseBraceIdx, ih]
    cases hk : lastCloseBraceIdx cs with
    | some k => simp
    | none =>
      by_cases hc : c = 125
      · simp [hc]
      · simp [hc]

/-- Without a closing brace anywhere, re.search finds nothing. -/
theorem reSearch_no_close : ∀ s : Str, lastCloseBraceIdx s = none →
    reSearchFirstLast s = none := by
  intro s
  induction s with
  | nil => intro _; rfl
  | cons c cs ih =>
    intro h
    simp only [lastCloseBraceIdx] at h
    cases hk : lastCloseBraceIdx cs with
    | some k => rw [hk] at h; simp at h
    | none =>
      rw [hk] at h
      have hc : c ≠ 125 := by
        by_contra hc
        simp [hc] at h
      simp only [reSearchFirstLast]
      by_cases h123 : c = 123
      · rw [if_pos h123, greedy_eq_lastIdx, hk]
        simp [ih hk]
      · rw [if_neg h123]
        exact ih hk

/-- The compiled regex behaviour coincides with the spec's description "from
the first opening brace to the last closing brace". -/
theorem reSearch_eq_spec : ∀ s : Str, reSearchFirstLast s = specBraceSpan s := by
  intro s
  induction s with
  | nil => rfl
  | cons c cs ih =>
    by_cases hc : c = 123
    · subst hc
      have hfb : firstBraceIdx (123 :: cs) = some 0 := by simp [firstBraceIdx]
      cases hk : lastCloseBraceIdx cs with
      | some k =>
        have hlc : lastCloseBraceIdx (123 :: cs) = some (k + 1) := by
          simp [lastCloseBraceIdx, hk]
        have hg : greedyToLastClose cs = some (cs.take (k + 1)) := by
          rw [greedy_eq_lastIdx, hk]; rfl
        have hL : reSearchFirstLast (123 :: cs) = some (123 :: cs.take (k + 1)) := by
          simp [reSearchFirstLast, hg]
        rw [hL]
        unfold specBraceSpan
        rw [hfb, hlc]
        dsimp only
        rw [if_pos (by omega : 0 < k + 1)]
        have h1 : k + 1 - 0 + 1 = (k + 1) + 1 := by omega
        rw [h1]
        simp [List.take_succ_cons]
      | none =>
        have hlc : lastCloseBraceIdx (123 :: cs) = none := by
          have : (123 : Nat) ≠ 125 := by decide
          simp [lastCloseBraceIdx, hk, this]
        have hg : greedyToLastClose cs = none := by rw [greedy_eq_lastIdx, hk]; rfl
        have hL : reSearchFirstLast (123 :: cs) = reSearchFirstLast cs := by
          simp [reSearchFirstLast, hg]
        rw [hL, reSearch_no_close cs hk]
        unfold specBraceSpan
        rw [hfb, hlc]
    · have hfb : firstBraceIdx (c :: cs) = (firstBraceIdx cs).map (fun x => x + 1) := by
        simp [firstBraceIdx, hc]
      have hL : reSearchFirstLast (c :: cs) = reSearchFirstLast cs := by
        simp [reSearchFirstLast, hc]
      rw [hL, ih]
      unfold specBraceSpan
      rw [hfb]
      cases hi : firstBraceIdx cs with
      | none =>
        dsimp only [Option.map_none']
      | some i =>
        dsimp only [Option.map_some']
        cases hk : lastCloseBraceIdx cs with
        | some k =>
          have hlc : lastCloseBraceIdx (c :: cs) = some (k + 1) := by
            simp [lastCloseBraceIdx, hk]
          rw [hlc]
          dsimp only
          by_cases hik : i < k
          · rw [if_pos hik, if_pos (by omega : i + 1 < k + 1)]
            have h1 : k + 1 - (i + 1) = k - i := by omega
            rw [h1]
            simp [List.drop_succ_cons]
          · rw [if_neg hik, if_neg (by omega : ¬(i + 1 < k + 1))]
        | none =>
          by_cases h125 : c = 125
          · have hlc : lastCloseBraceIdx (c :: cs) = some 0 := by
              simp [lastCloseBraceIdx, hk, h125]
            rw [hlc]
            dsimp only
            rw [if_neg (by omega : ¬(i + 1 < 0))]
          · have hlc : lastCloseBraceIdx (c :: cs) = none := by
              simp [lastCloseBraceIdx, hk, h125]
            rw [hlc]

/-- C2: safe_json_parse operates on exactly the substring starting at the
first opening brace and ending at the last closing brace of the
fence-stripped, trimmed text, with the match spanning newlines: the compiled
greedy regex equals the spec's span description (in particular, with several
brace blocks the span runs from the first block's opening brace to the last
block's closing brace, intervening prose included), and the parse stage acts
on exactly that span. -/
theorem c2_brace_span (text : Str) :
    reSearchFirstLast (cleanedOf text) = specBraceSpan (cleanedOf text) ∧
    safe_json_parse text =
      (match specBraceSpan (cleanedOf text) with
       | none => Except.error ParseErr.noJsonFound
       | some sub =>
         match jsonLoads sub with
         | some j => Except.ok j
         | none => Except.error (ParseErr.jsonDecode sub)) := by
  refine ⟨reSearch_eq_spec _, ?_⟩
  unfold safe_json_parse
  rw [reSearch_eq_spec]

/-- C3: safe_json_parse fails with the no-JSON error exactly when the cleaned
text has no brace span, fails with the decode error carrying the offending
substring exactly when the extracted span is not valid JSON (valid in the
embedded integer-number model of json.loads), and returns normally otherwise;
the two spec examples are included. -/
theorem c3_error_taxonomy (text : Str) :
    (safe_json_parse text = Except.error ParseErr.noJsonFound ↔
      reSearchFirstLast (cleanedOf text) = none) ∧
    (∀ sub : Str, safe_json_parse text = Except.error (ParseErr.jsonDecode sub) ↔
      (reSearchFirstLast (cleanedOf text) = some sub ∧ jsonLoads sub = none)) ∧
    (∀ sub : Str, ∀ j : Json, reSearchFirstLast (cleanedOf text) = some sub →
      jsonLoads sub = some j → safe_json_parse text = Except.ok j) ∧
    safe_json_parse (lit "the model returned no data") = Except.error ParseErr.noJsonFound ∧
    safe_json_parse (lit "\x7b\"a\": \x7d") =
      Except.error (ParseErr.jsonDecode (lit "\x7b\"a\": \x7d")) := by
  refine ⟨?_, ?_, ?_, rfl, rfl⟩
  · unfold safe_json_parse
    cases hr : reSearchFirstLast (cleanedOf text) with
    | none => simp
    | some sub0 =>
      cases hj : jsonLoads sub0 with
      | some j0 => simp [hj]
      | none => simp [hj]
  · intro sub
    unfold safe_json_parse
    cases hr : reSearchFirstLast (cleanedOf text) with
    | none => simp
    | some sub0 =>
      cases hj : jsonLoads sub0 with
      | some j0 =>
        dsimp only
        rw [hj]
        constructor
        · intro h; simp at h
        · rintro ⟨h1, h2⟩
          obtain rfl : sub0 = sub := Option.some.inj h1
          rw [h2] at hj
          simp at hj
      | none =>
        dsimp only
        rw [hj]
        constructor
        · intro h
          injection h with h2
          injection h2 with h3
          exact ⟨by rw [h3], by rw [← h3]; exact hj⟩
        · rintro ⟨h1, h2⟩
          have h3 : sub0 = sub := Option.some.inj h1
          rw [h3]
  · intro sub j hs hj
    unfold safe_json_parse
    rw [hs]
    dsimp only
    rw [hj]

/-- C7: the resume and job-description segments embedded in the prompt are
exactly the first min(4000, length) characters of the corresponding inputs,
hence never longer than 4000 characters, and inputs of at most 4000
characters are embedded unmodified. -/
theorem c7_prompt_truncation (r j : Str) :
    build_prompt r j =
      promptHead ++ List.take 4000 r ++ promptMid ++ List.take 4000 j ++ promptTail ∧
    (List.take 4000 r).length = min 4000 r.length ∧
    (List.take 4000 j).length = min 4000 j.length ∧
    (List.take 4000 r).length ≤ 4000 ∧
    (List.take 4000 j).length ≤ 4000 ∧
    (r.length ≤ 4000 → List.take 4000 r = r) ∧
    (j.length ≤ 4000 → List.take 4000 j = j) := by
  refine ⟨rfl, List.length_take _ _, List.length_take _ _, ?_, ?_, ?_, ?_⟩
  · rw [List.length_take]; omega
  · rw [List.length_take]; omega
  · intro h; exact List.take_of_length_le h
  · intro h; exact List.take_of_length_le h

/-- Witness for C7 at the end-to-end scenario inputs of the spec. -/
theorem c7_prompt_truncation_witness :
    List.take 4000 (lit "5 years Python") = lit "5 years Python" ∧
    List.take 4000 (lit "Need Python developer") = lit "Need Python developer" ∧
    build_prompt (lit "5 years Python") (lit "Need Python developer") =
      promptHead ++ lit "5 years Python" ++ promptMid ++
        lit "Need Python developer" ++ promptTail := by
  have h := c7_prompt_truncation (lit "5 years Python") (lit "Need Python developer")
  have h1 := h.2.2.2.2.2.1 (by decide)
  have h2 := h.2.2.2.2.2.2 (by decide)
  exact ⟨h1, h2, by rw [h.1, h1, h2]⟩

/-- C8: the dispatch block reports success exactly on a normal response or a
client-side read-timeout, reports a hard failure exactly on every other
request exception (connect timeout, connection error, any other transport
error), and makes exactly one delivery attempt in every case. -/
theorem c8_dispatch_semantics (o : PostOutcome) :
    ((dispatch_to_n8n o).result = DispatchResult.success ↔
      (o = PostOutcome.readTimeout ∨ ∃ st, o = PostOutcome.ok st)) ∧
    ((dispatch_to_n8n o).result = DispatchResult.hardFailureStop ↔
      (o = PostOutcome.connectTimeout ∨ o = PostOutcome.connectionError ∨
        o = PostOutcome.otherRequestException)) ∧
    (dispatch_to_n8n o).attempts = 1 := by
  cases o <;> simp [dispatch_to_n8n]

/-- The one-scalar decode step consumed from a list never grows it. -/
theorem utf8DecodeOne_suffix_le (b : Nat) (bs : List Nat) (c : Nat) (rest : List Nat)
    (h : utf8DecodeOne b bs = some (c, rest)) : rest.length ≤ bs.length := by
  unfold utf8DecodeOne at h
  dsimp only at h
  repeat' split at h
  all_goals
    first
      | (rw [Option.some.injEq, Prod.mk.injEq] at h
         rw [← h.2]
         try simp only [List.length_cons]
         try omega)
      | simp at h

/-- Decoding one encoded scalar value recovers it and leaves the rest. -/
theorem utf8DecodeOne_enc (c : Nat) (hv : ValidScalar c) (rest : List Nat) :
    ∃ t : List Nat, utf8Encode1 c = (utf8Encode1 c).headI :: t ∧
      utf8DecodeOne ((utf8Encode1 c).headI) (t ++ rest) = some (c, rest) := by
  obtain ⟨hrange, hsur⟩ := hv
  by_cases h1 : c < 128
  · refine ⟨[], ?_, ?_⟩
    · unfold utf8Encode1
      rw [if_pos h1]
      rfl
    · have hh : (utf8Encode1 c).headI = c := by unfold utf8Encode1; rw [if_pos h1]; rfl
      rw [hh]
      unfold utf8DecodeOne
      rw [if_pos h1]
      simp
  · by_cases h2 : c < 2048
    · have he : utf8Encode1 c = [192 + c / 64, 128 + c % 64] := by
        unfold utf8Encode1
        rw [if_neg h1, if_pos h2]
      refine ⟨[128 + c % 64], by rw [he]; rfl, ?_⟩
      rw [he]
      show utf8DecodeOne (192 + c / 64) ((128 + c % 64) :: rest) = some (c, rest)
      unfold utf8DecodeOne
      rw [if_neg (by omega), if_neg (by omega), if_pos (by omega)]
      dsimp only
      have hcont : isCont (128 + c % 64) = true := by
        unfold isCont
        simp only [Bool.and_eq_true, decide_eq_true_eq]
        omega
      rw [if_pos hcont]
      have hval : (192 + c / 64 - 192) * 64 + (128 + c % 64 - 128) = c := by omega
      rw [hval]
    · by_cases h3 : c < 65536
      · have he : utf8Encode1 c = [224 + c / 4096, 128 + c / 64 % 64, 128 + c % 64] := by
          unfold utf8Encode1
          rw [if_neg h1, if_neg h2, if_pos h3]
        refine ⟨[128 + c / 64 % 64, 128 + c % 64], by rw [he]; rfl, ?_⟩
        rw [he]
        show utf8DecodeOne (224 + c / 4096)
            ((128 + c / 64 % 64) :: (128 + c % 64) :: rest) = some (c, rest)
        unfold utf8DecodeOne
        rw [if_neg (by omega), if_neg (by omega), if_neg (by omega), if_pos (by omega)]
        dsimp only
        have hcont : (isCont (128 + c / 64 % 64) && isCont (128 + c % 64)) = true := by
          unfold isCont
          simp only [Bool.and_eq_true, decide_eq_true_eq]
          omega
        rw [if_pos hcont]
        have hval : (224 + c / 4096 - 224) * 4096 + (128 + c / 64 % 64 - 128) * 64 +
            (128 + c % 64 - 128) = c := by omega
        rw [hval]
        rw [if_neg (by omega),
          if_neg (by simp only [Bool.and_eq_true, decide_eq_true_eq]; omega)]
      · have he : utf8Encode1 c =
            [240 + c / 262144, 128 + c / 4096 % 64, 128 + c / 64 % 64, 128 + c % 64] := by
          unfold utf8Encode1
          rw [if_neg h1, if_neg h2, if_neg h3]
        refine ⟨[128 + c / 4096 % 64, 128 + c / 64 % 64, 128 + c % 64], by rw [he]; rfl, ?_⟩
        rw [he]
        show utf8DecodeOne (240 + c / 262144)
            ((128 + c / 4096 % 64) :: (128 + c / 64 % 64) :: (128 + c % 64) :: rest) =
          some (c, rest)
        unfold utf8DecodeOne
        rw [if_neg (by omega), if_neg (by omega), if_neg (by omega), if_neg (by omega),
          if_pos (by omega)]
        dsimp only
        have hcont : (isCont (128 + c / 4096 % 64) && isCont (128 + c / 64 % 64) &&
            isCont (128 + c % 64)) = true := by
          unfold isCont
          simp only [Bool.and_eq_true, decide_eq_true_eq]
          omega
        rw [if_pos hcont]
        have hval : (240 + c / 262144 - 240) * 262144 + (128 + c / 4096 % 64 - 128) * 4096 +
            (128 + c / 64 % 64 - 128) * 64 + (128 + c % 64 - 128) = c := by omega
        rw [hval]
        rw [if_neg (by omega), if_neg (by omega)]

/-- The fuelled decoding loop inverts encoding, for any sufficient fuel. -/
theorem utf8DecodeF_round_trip : ∀ f : Nat, ∀ s : Str, (utf8Encode s).length < f →
    (∀ c ∈ s, ValidScalar c) → utf8DecodeF f (utf8Encode s) = some s := by
  intro f
  induction f with
  | zero => intro s hf _; omega
  | succ f ih =>
    intro s hf hv
    cases s with
    | nil => rfl
    | cons c s' =>
      have hvc := hv c (List.mem_cons_self c s')
      have hv' := fun d hd => hv d (List.mem_cons_of_mem c hd)
      obtain ⟨t, ht, hone⟩ := utf8DecodeOne_enc c hvc (utf8Encode s')
      have henc : utf8Encode (c :: s') = utf8Encode1 c ++ utf8Encode s' := rfl
      rw [henc, ht, List.cons_append]
      show utf8DecodeF (f + 1) ((utf8Encode1 c).headI :: (t ++ utf8Encode s')) = some (c :: s')
      rw [show utf8DecodeF (f + 1) ((utf8Encode1 c).headI :: (t ++ utf8Encode s')) =
        (match utf8DecodeOne ((utf8Encode1 c).headI) (t ++ utf8Encode s') with
          | some (d, rest) => (utf8DecodeF f rest).map (d :: ·)
          | none => none) from rfl]
      rw [hone]
      dsimp only
      have hlen : (utf8Encode s').length < f := by
        rw [henc, ht] at hf
        simp only [List.length_append, List.length_cons] at hf
        omega
      rw [ih s' hlen hv']
      rfl

/-- Decoding inverts encoding on sequences of Unicode scalar values. -/
theorem utf8_round_trip : ∀ s : Str, (∀ c ∈ s, ValidScalar c) →
    utf8Decode (utf8Encode s) = some s := by
  intro s hv
  unfold utf8Decode
  exact utf8DecodeF_round_trip ((utf8Encode s).length + 1) s (by omega) hv

/-- C4: for a text upload whose bytes decode as UTF-8, the extracted text is
the decoded text trimmed; in particular encoding any scalar-value string and
extracting returns that string trimmed. -/
theorem c4_text_extraction :
    (∀ bytes : List Nat, ∀ s : Str, utf8Decode bytes = some s →
      extract_text_from_txt bytes = Except.ok (pyStrip s)) ∧
    (∀ s : Str, (∀ c ∈ s, ValidScalar c) →
      extract_text_from_txt (utf8Encode s) = Except.ok (pyStrip s)) := by
  constructor
  · intro bytes s h
    unfold extract_text_from_txt
    rw [h]
  · intro s hvv
    unfold extract_text_from_txt
    rw [utf8_round_trip s hvv]

/-- Witness for C4 on a concrete multi-byte upload. -/
theorem c4_text_extraction_witness :
    extract_text_from_txt (utf8Encode (lit "  héllo résumé \n")) =
      Except.ok (pyStrip (lit "  héllo résumé \n")) :=
  c4_text_extraction.2 (lit "  héllo résumé \n") (by decide)

/-- Counterexample to C5 as stated: non-UTF-8 bytes on the text path surface
as a raw UnicodeDecodeError, not as the typed ExtractionError the claim
names. -/
theorem c5_cx_raw_exception :
    extract_text_from_txt [255] = Except.error PyExc.unicodeDecodeError ∧
    extract_text_from_txt [255] ≠ Except.error PyExc.extractionError := by
  refine ⟨rfl, ?_⟩
  intro hc
  rw [show extract_text_from_txt [255] = Except.error PyExc.unicodeDecodeError from rfl] at hc
  injection hc with h2
  exact absurd h2 (by decide)

/-- C5 amended: unrecoverable decode errors propagate as raw exceptions — the
text path raises UnicodeDecodeError, and when both PDF strategies fail the
fallback engine's exception escapes; no typed ExtractionError exists in the
code. -/
theorem c5_raw_propagation_amended :
    (∀ bytes : List Nat, utf8Decode bytes = none →
      extract_text_from_txt bytes = Except.error PyExc.unicodeDecodeError) ∧
    (∀ f : PdfFile, f.primaryRaises = true → f.fallbackRaises = true →
      extract_text_from_pdf f = Except.error PyExc.fallbackEngineError) := by
  constructor
  · intro bytes h
    unfold extract_text_from_txt
    rw [h]
  · intro f h1 h2
    simp [extract_text_from_pdf, h1, h2]

/-- Witness for the amended C5 on concrete failing inputs. -/
theorem c5_raw_propagation_witness :
    extract_text_from_txt [255] = Except.error PyExc.unicodeDecodeError ∧
    extract_text_from_pdf ⟨[], true, [], true⟩ = Except.error PyExc.fallbackEngineError :=
  ⟨c5_raw_propagation_amended.1 [255] rfl,
    c5_raw_propagation_amended.2 ⟨[], true, [], true⟩ rfl rfl⟩

/-- Counterexample to C6 as stated: when the primary engine yields a page and
then raises, the fallback's text is appended to the already-accumulated
primary text, so the returned value is not the fallback's concatenated
per-page text. -/
theorem c6_cx_partial_primary_text :
    extract_text_from_pdf ⟨[some (lit "A")], true, [lit "B"], false⟩ =
      Except.ok (lit "AB") ∧
    extract_text_from_pdf ⟨[some (lit "A")], true, [lit "B"], false⟩ ≠
      Except.ok (pyStrip ([lit "B"] : List Str).flatten) := by
  refine ⟨rfl, ?_⟩
  intro hc
  rw [show extract_text_from_pdf ⟨[some (lit "A")], true, [lit "B"], false⟩ =
    Except.ok (lit "AB") from rfl] at hc
  injection hc with h2
  exact absurd h2 (by decide)

/-- C6 amended: when the primary path raises and the fallback succeeds, the
extractor returns the primary text accumulated before the error concatenated
with the fallback's per-page text, trimmed; when the primary raised before
yielding any text, this is exactly the fallback's concatenated text trimmed. -/
theorem c6_fallback_amended (f : PdfFile)
    (h1 : f.primaryRaises = true) (h2 : f.fallbackRaises = false) :
    extract_text_from_pdf f =
      Except.ok (pyStrip (joinPages f.primaryPages ++ f.fallbackPages.flatten)) ∧
    (f.primaryPages = [] →
      extract_text_from_pdf f = Except.ok (pyStrip f.fallbackPages.flatten)) := by
  constructor
  · simp [extract_text_from_pdf, h1, h2]
  · intro h0
    simp [extract_text_from_pdf, h1, h2, h0, joinPages]

/-- Witness for the amended C6 on a concrete corrupt-for-the-primary file. -/
theorem c6_fallback_witness :
    extract_text_from_pdf ⟨[], true, [lit "fallback text"], false⟩ =
      Except.ok (pyStrip ([lit "fallback text"] : List Str).flatten) :=
  (c6_fallback_amended ⟨[], true, [lit "fallback text"], false⟩ rfl rfl).2 rfl

/-- Counterexample to C9 as stated: with the webhook URL missing, a full run
still performs extraction, the model call, and the parse, and fails only at
the dispatch step — not with a configuration error before the pipeline. -/
theorem c9_cx_no_fail_fast :
    runPipeline { geminiApiKey := some (lit "key"), n8nWebhookUrl := none }
        (utf8Encode (lit "resume body")) (lit "\x7b\x7d") (PostOutcome.ok 200) =
      ([RunEvent.extraction, RunEvent.modelCall, RunEvent.jsonParse, RunEvent.dispatchCall],
        RunOutcome.dispatchFailedStop) ∧
    ([RunEvent.extraction, RunEvent.modelCall, RunEvent.jsonParse, RunEvent.dispatchCall],
        RunOutcome.dispatchFailedStop) ≠
      (([] : List RunEvent), RunOutcome.configFailFast) :=
  ⟨rfl, by decide⟩

/-- C9 amended: no fail-fast configuration check exists; with the webhook URL
missing, extraction, the model call and the parse all run, and the failure
surfaces only at the dispatch step as a request error (the missing model key
is passed to the external client without any explicit check in the code). -/
theorem c9_late_failure_amended (cfg : Config) (resumeBytes : List Nat) (modelRaw : Str)
    (net : PostOutcome) (s : Str) (j : Json)
    (hurl : cfg.n8nWebhookUrl = none)
    (hext : extract_text_from_txt resumeBytes = Except.ok s)
    (hparse : safe_json_parse (pyStrip modelRaw) = Except.ok j) :
    runPipeline cfg resumeBytes modelRaw net =
      ([RunEvent.extraction, RunEvent.modelCall, RunEvent.jsonParse, RunEvent.dispatchCall],
        RunOutcome.dispatchFailedStop) := by
  unfold runPipeline
  rw [hext]
  dsimp only
  rw [hparse]
  dsimp only
  rw [hurl]
  rfl

/-- Witness for the amended C9 on a concrete run with a missing webhook URL. -/
theorem c9_late_failure_witness :
    runPipeline { geminiApiKey := none, n8nWebhookUrl := none }
        (utf8Encode (lit "text")) (lit " \x7b\x7d ") PostOutcome.readTimeout =
      ([RunEvent.extraction, RunEvent.modelCall, RunEvent.jsonParse, RunEvent.dispatchCall],
        RunOutcome.dispatchFailedStop) :=
  c9_late_failure_amended _ _ _ _ (pyStrip (lit "text")) (Json.jobj []) rfl rfl rfl

/-- C10: the fence markers are removed from the whole input before brace-span
extraction, including occurrences inside JSON string values, so an embedded
object whose string field contains a triple backtick comes back with the
backticks stripped from the field value. -/
theorem c10_fence_strip_inside_strings :
    cleanedOf (lit "```json\n\x7b\"summary\": \"a``` b\"\x7d\n```") =
      lit "\x7b\"summary\": \"a b\"\x7d" ∧
    safe_json_parse (lit "```json\n\x7b\"summary\": \"a``` b\"\x7d\n```") =
      Except.ok (Json.jobj [(lit "summary", Json.jstr (lit "a b"))]) ∧
    lit "a b" ≠ lit "a``` b" :=
  ⟨rfl, rfl, by decide⟩

/-- Counterexample to C1 as stated: a well-formed object whose string field
contains a triple backtick, embedded in brace-free prose, does not round-trip
— the backticks are stripped from the field value before parsing. -/
theorem c1_cx_backtick_field :
    safe_json_parse (lit "x: \x7b\"a\": \"``` ok\"\x7d") =
      Except.ok (Json.jobj [(lit "a", Json.jstr (lit " ok"))]) ∧
    safe_json_parse (lit "x: \x7b\"a\": \"``` ok\"\x7d") ≠
      Except.ok (Json.jobj [(lit "a", Json.jstr (lit "``` ok"))]) := by
  refine ⟨rfl, ?_⟩
  intro hc
  rw [show safe_json_parse (lit "x: \x7b\"a\": \"``` ok\"\x7d") =
    Except.ok (Json.jobj [(lit "a", Json.jstr (lit " ok"))]) from rfl] at hc
  injection hc with h1
  injection h1 with h2
  injection h2 with h3 h4
  injection h3 with h5 h6
  injection h6 with h7
  exact absurd h7 (by decide)

/-! Decimal digits of the serialiser. -/

theorem natDigitsF_ne_nil : ∀ f n : Nat, n < f → natDigitsF f n ≠ [] := by
  intro f
  induction f with
  | zero => intro n h; omega
  | succ f ih =>
    intro n h
    unfold natDigitsF
    by_cases h10 : n < 10
    · rw [if_pos h10]; simp
    · rw [if_neg h10]; simp

theorem natDigitsF_all_dig : ∀ f n : Nat, n < f → ∀ c ∈ natDigitsF f n, isDig c = true := by
  intro f
  induction f with
  | zero => intro n h; omega
  | succ f ih =>
    intro n h c hc
    unfold natDigitsF at hc
    by_cases h10 : n < 10
    · rw [if_pos h10] at hc
      simp at hc
      subst hc
      unfold isDig
      simp only [Bool.and_eq_true, decide_eq_true_eq]
      omega
    · rw [if_neg h10] at hc
      rcases List.mem_append.mp hc with h1 | h1
      · exact ih (n / 10) (by omega) c h1
      · simp at h1
        subst h1
        unfold isDig
        simp only [Bool.and_eq_true, decide_eq_true_eq]
        omega

theorem natDigitsF_head_ne_zero : ∀ f n : Nat, n < f → n ≠ 0 →
    (natDigitsF f n).head? ≠ some 48 := by
  intro f
  induction f with
  | zero => intro n h; omega
  | succ f ih =>
    intro n h hn
    unfold natDigitsF
    by_cases h10 : n < 10
    · rw [if_pos h10]
      simp
      omega
    · rw [if_neg h10]
      obtain ⟨d, t, ht⟩ := List.exists_cons_of_ne_nil (natDigitsF_ne_nil f (n / 10) (by omega))
      rw [ht]
      have := ih (n / 10) (by omega) (by omega)
      rw [ht] at this
      simpa using this

theorem digitsVal_append_one (a : Str) (d : Nat) :
    digitsVal (a ++ [d]) = 10 * digitsVal a + (d - 48) := by
  unfold digitsVal
  rw [List.foldl_append]
  simp
  omega

theorem natDigitsF_val : ∀ f n : Nat, n < f → digitsVal (natDigitsF f n) = n := by
  intro f
  induction f with
  | zero => intro n h; omega
  | succ f ih =>
    intro n h
    unfold natDigitsF
    by_cases h10 : n < 10
    · rw [if_pos h10]
      unfold digitsVal
      simp
    · rw [if_neg h10]
      rw [digitsVal_append_one, ih (n / 10) (by omega)]
      omega

/-! takeWhile and dropWhile across a run that satisfies the predicate. -/

theorem takeWhile_run (q : Nat → Bool) : ∀ a b : Str, (∀ c ∈ a, q c = true) →
    (∀ c, b.head? = some c → q c = false) →
    (a ++ b).takeWhile q = a ∧ (a ++ b).dropWhile q = b := by
  intro a
  induction a with
  | nil =>
    intro b _ hb
    cases b with
    | nil => simp
    | cons c b' =>
      have := hb c rfl
      simp [List.takeWhile_cons, List.dropWhile_cons, this]
  | cons x a' ih =>
    intro b ha hb
    have hx : q x = true := ha x (List.mem_cons_self x a')
    have ha' : ∀ c ∈ a', q c = true := fun c hc => ha c (List.mem_cons_of_mem x hc)
    obtain ⟨ht, hd⟩ := ih b ha' hb
    constructor
    · simp [List.takeWhile_cons, hx, ht]
    · simp [List.dropWhile_cons, hx, hd]

/-! Round trip for serialised numbers. -/

theorem parseNumNat_ser (n : Nat) (rest : Str) (hb : numBoundaryB rest = true) :
    parseNumNat (natDigits n ++ rest) = some (n, rest) := by
  have hlt : n < n + 1 := by omega
  have hall : ∀ c ∈ natDigits n, isDig c = true := natDigitsF_all_dig (n + 1) n hlt
  have hhead : ∀ c, rest.head? = some c → isDig c = false := by
    intro c hc
    cases rest with
    | nil => simp at hc
    | cons r rest' =>
      unfold numBoundaryB at hb
      simp only [Bool.and_eq_true, Bool.not_eq_true'] at hb
      injection hc with hc
      rw [← hc]
      exact hb.1.1.1
  obtain ⟨htw, hdw⟩ := takeWhile_run isDig (natDigits n) rest hall hhead
  unfold parseNumNat
  rw [htw, hdw]
  dsimp only
  rw [if_neg (by simp [natDigitsF_ne_nil (n + 1) n hlt, natDigits])]
  have hlead : ¬((natDigits n).head? = some 48 ∧ (natDigits n).length ≠ 1) := by
    by_cases hn : n = 0
    · subst hn
      intro hcon
      exact hcon.2 (by rfl)
    · intro hcon
      exact natDigitsF_head_ne_zero (n + 1) n hlt hn hcon.1
  rw [if_neg hlead]
  have hval : digitsVal (natDigits n) = n := natDigitsF_val (n + 1) n hlt
  cases rest with
  | nil => rw [hval]
  | cons r rest' =>
    unfold numBoundaryB at hb
    simp only [Bool.and_eq_true, Bool.not_eq_true', decide_eq_true_eq] at hb
    have h46 : r ≠ 46 := hb.1.1.2
    have h101 : r ≠ 101 := hb.1.2
    have h69 : r ≠ 69 := hb.2
    split
    · next heq => exact absurd (List.head_eq_of_cons_eq heq) h46
    · next heq => exact absurd (List.head_eq_of_cons_eq heq) h101
    · next heq => exact absurd (List.head_eq_of_cons_eq heq) h69
    · rw [hval]

theorem parseNum_ser (n : Int) (rest : Str) (hb : numBoundaryB rest = true) :
    parseNum (serNum n ++ rest) = some (n, rest) := by
  by_cases hneg : n < 0
  · have hser : serNum n = 45 :: natDigits n.natAbs := by
      unfold serNum
      rw [if_pos hneg]
    rw [hser]
    show parseNum (45 :: (natDigits n.natAbs ++ rest)) = some (n, rest)
    rw [parseNum.eq_def]
    dsimp only
    rw [parseNumNat_ser n.natAbs rest hb]
    simp only [Option.map_some']
    have : -(n.natAbs : Int) = n := by omega
    rw [this]
  · have hser : serNum n = natDigits n.toNat := by
      unfold serNum
      rw [if_neg hneg]
    rw [hser]
    obtain ⟨d, t, ht⟩ := List.exists_cons_of_ne_nil
      (natDigitsF_ne_nil (n.toNat + 1) n.toNat (by omega))
    have hd : isDig d = true := by
      refine natDigitsF_all_dig (n.toNat + 1) n.toNat (by omega) d ?_
      rw [ht]
      simp
    have hd45 : d ≠ 45 := by
      unfold isDig at hd
      simp only [Bool.and_eq_true, decide_eq_true_eq] at hd
      omega
    have hnd : natDigits n.toNat = d :: t := ht
    rw [hnd, List.cons_append, parseNum.eq_def]
    split
    · rename_i heq
      exact absurd (List.head_eq_of_cons_eq heq) hd45
    · rw [← List.cons_append, ← hnd, parseNumNat_ser n.toNat rest hb]
      simp only [Option.map_some']
      have : (n.toNat : Int) = n := by omega
      rw [this]

/-! Round trip for serialised strings. -/

theorem hexVal_hexDigitChar (v : Nat) (h : v < 16) : hexVal (hexDigitChar v) = some v := by
  interval_cases v <;> rfl

theorem parseStr_ser : ∀ s rest : Str, parseStr (serStrBody s ++ 34 :: rest) = some (s, rest) := by
  intro s
  induction s with
  | nil =>
    intro rest
    show parseStr (34 :: rest) = some ([], rest)
    rw [parseStr.eq_def]
    norm_num
  | cons c s' ih =>
    intro rest
    have hbody : serStrBody (c :: s') = escapeChar c ++ serStrBody s' := rfl
    rw [hbody, List.append_assoc]
    by_cases h34 : c = 34
    · subst h34
      rw [show escapeChar 34 = [92, 34] from rfl]
      show parseStr (92 :: 34 :: (serStrBody s' ++ 34 :: rest)) = some (34 :: s', rest)
      rw [parseStr.eq_def]
      norm_num
      rw [ih rest]
    · by_cases h92 : c = 92
      · subst h92
        rw [show escapeChar 92 = [92, 92] from rfl]
        show parseStr (92 :: 92 :: (serStrBody s' ++ 34 :: rest)) = some (92 :: s', rest)
        rw [parseStr.eq_def]
        norm_num
        rw [ih rest]
      · by_cases hctl : c < 32
        · have hesc : escapeChar c =
              [92, 117, 48, 48, hexDigitChar (c / 16), hexDigitChar (c % 16)] := by
            unfold escapeChar
            rw [if_neg h34, if_neg h92, if_pos hctl]
          rw [hesc]
          show parseStr (92 :: 117 :: 48 :: 48 :: hexDigitChar (c / 16) ::
            hexDigitChar (c % 16) :: (serStrBody s' ++ 34 :: rest)) = some (c :: s', rest)
          rw [parseStr.eq_def]
          norm_num
          rw [hexVal_hexDigitChar (c / 16) (by omega),
            hexVal_hexDigitChar (c % 16) (by omega),
            show hexVal 48 = some 0 from rfl]
          dsimp only
          rw [ih rest]
          show some ((0 * 4096 + 0 * 256 + c / 16 * 16 + c % 16) :: s', rest) =
            some (c :: s', rest)
          have hval : 0 * 4096 + 0 * 256 + c / 16 * 16 + c % 16 = c := by omega
          rw [hval]
        · have hesc : escapeChar c = [c] := by
            unfold escapeChar
            rw [if_neg h34, if_neg h92, if_neg hctl]
          rw [hesc]
          show parseStr (c :: (serStrBody s' ++ 34 :: rest)) = some (c :: s', rest)
          rw [parseStr.eq_def]
          dsimp only
          rw [if_neg h34, if_neg h92, if_neg hctl, ih rest]
          rfl

/-! Helpers for the scanner round trip. -/

theorem skipWs_cons (c : Nat) (t : Str) (h : isJWs c = false) : skipWs (c :: t) = c :: t := by
  simp [skipWs, List.dropWhile_cons, h]

theorem sizeJ_pos (j : Json) : 1 ≤ sizeJ j := by
  cases j <;> simp [sizeJ] <;> omega

theorem nb_arrInMore (xs : List Json) (rest : Str) :
    numBoundaryB (serArrInMore xs ++ 93 :: rest) = true := by
  cases xs with
  | nil =>
    rw [show serArrInMore [] = ([] : Str) from by simp [serArrInMore]]
    rfl
  | cons x xs' =>
    rw [show serArrInMore (x :: xs') = 44 :: (serVal x ++ serArrInMore xs') from by
      simp [serArrInMore]]
    rfl

theorem nb_objInMore (fs : List (Str × Json)) (rest : Str) :
    numBoundaryB (serObjInMore fs ++ 125 :: rest) = true := by
  cases fs with
  | nil =>
    rw [show serObjInMore [] = ([] : Str) from by simp [serObjInMore]]
    rfl
  | cons kv fs' =>
    obtain ⟨k, v⟩ := kv
    rw [show serObjInMore ((k, v) :: fs') =
      44 :: (serStr k ++ (58 :: (serVal v ++ serObjInMore fs'))) from by simp [serObjInMore]]
    rfl

/-- A code point other than space, tab, newline and carriage return is not
JSON whitespace. -/
theorem isJWs_false (d : Nat) (h1 : d ≠ 32) (h2 : d ≠ 9) (h3 : d ≠ 10) (h4 : d ≠ 13) :
    isJWs d = false := by
  by_contra hcon
  have htrue : isJWs d = true := by revert hcon; cases isJWs d <;> simp
  unfold isJWs at htrue
  simp only [Bool.or_eq_true, decide_eq_true_eq] at htrue
  rcases htrue with h | h | h | h <;> omega

/-- The first character of a serialised value: never whitespace, a closing
bracket, a closing brace, or a comma. -/
theorem serHead (j : Json) : ∃ c : Nat, ∃ t : Str, serVal j = c :: t ∧
    isJWs c = false ∧ c ≠ 93 ∧ c ≠ 125 ∧ c ≠ 44 := by
  cases j with
  | null =>
    exact ⟨110, [117, 108, 108], by simp [serVal]; rfl, by decide, by decide, by decide,
      by decide⟩
  | jbool b =>
    cases b with
    | true =>
      exact ⟨116, [114, 117, 101], by simp [serVal]; rfl, by decide, by decide, by decide,
        by decide⟩
    | false =>
      exact ⟨102, [97, 108, 115, 101], by simp [serVal]; rfl, by decide, by decide, by decide,
        by decide⟩
  | jnum n =>
    by_cases hneg : n < 0
    · refine ⟨45, natDigits n.natAbs, ?_, by decide, by decide, by decide, by decide⟩
      simp only [serVal]
      unfold serNum
      rw [if_pos hneg]
    · obtain ⟨d, t, ht⟩ := List.exists_cons_of_ne_nil
        (natDigitsF_ne_nil (n.toNat + 1) n.toNat (by omega))
      have hd : isDig d = true := by
        refine natDigitsF_all_dig (n.toNat + 1) n.toNat (by omega) d ?_
        rw [ht]
        simp
      have hdb : 48 ≤ d ∧ d ≤ 57 := by
        unfold isDig at hd
        simp only [Bool.and_eq_true, decide_eq_true_eq] at hd
        exact hd
      refine ⟨d, t, ?_, ?_, by omega, by omega, by omega⟩
      · simp only [serVal]
        unfold serNum
        rw [if_neg hneg]
        exact ht
      · exact isJWs_false d (by omega) (by omega) (by omega) (by omega)
  | jstr s =>
    refine ⟨34, serStrBody s ++ [34], ?_, by decide, by decide, by decide, by decide⟩
    simp [serVal, serStr]
  | jarr xs =>
    exact ⟨91, serArrIn xs ++ [93], by simp [serVal], by decide, by decide, by decide,
      by decide⟩
  | jobj fs =>
    exact ⟨123, serObjIn fs ++ [125], by simp [serVal], by decide, by decide, by decide,
      by decide⟩

/-- The scanner inverts the serialiser in every mode, for any fuel at least
the structural size of the parsed material. -/
theorem rt_master : ∀ fuel : Nat,
    (∀ j : Json, ∀ rest : Str, sizeJ j ≤ fuel → numBoundaryB rest = true →
      parseF fuel PMode.val (serVal j ++ rest) = some (PRes.v j, rest)) ∧
    (∀ xs : List Json, ∀ rest : Str, sizeL xs + 1 ≤ fuel →
      parseF fuel PMode.arrBody (serArrIn xs ++ 93 :: rest) = some (PRes.items xs, rest)) ∧
    (∀ xs : List Json, ∀ rest : Str, sizeL xs + 1 ≤ fuel →
      parseF fuel PMode.arrMore (serArrInMore xs ++ 93 :: rest) = some (PRes.items xs, rest)) ∧
    (∀ fs : List (Str × Json), ∀ rest : Str, sizeF fs + 1 ≤ fuel →
      parseF fuel PMode.objBody (serObjIn fs ++ 125 :: rest) = some (PRes.fields fs, rest)) ∧
    (∀ fs : List (Str × Json), ∀ rest : Str, sizeF fs + 1 ≤ fuel →
      parseF fuel PMode.objMore (serObjInMore fs ++ 125 :: rest) = some (PRes.fields fs, rest)) := by
  intro fuel
  induction fuel with
  | zero =>
    refine ⟨fun j rest hsz _ => absurd hsz (by have := sizeJ_pos j; omega),
      fun xs rest hsz => absurd hsz (by omega),
      fun xs rest hsz => absurd hsz (by omega),
      fun fs rest hsz => absurd hsz (by omega),
      fun fs rest hsz => absurd hsz (by omega)⟩
  | succ f ih =>
    obtain ⟨ihv, iha, iham, iho, ihom⟩ := ih
    refine ⟨?_, ?_, ?_, ?_, ?_⟩
    · -- values
      intro j rest hsz hb
      cases j with
      | null =>
        rw [show serVal Json.null = [110, 117, 108, 108] from by simp [serVal]; rfl]
        exact rfl
      | jbool b =>
        cases b with
        | true =>
          rw [show serVal (Json.jbool true) = [116, 114, 117, 101] from by simp [serVal]; rfl]
          exact rfl
        | false =>
          rw [show serVal (Json.jbool false) = [102, 97, 108, 115, 101] from by
            simp [serVal]; rfl]
          exact rfl
      | jnum n =>
        rw [show serVal (Json.jnum n) = serNum n from by simp [serVal]]
        by_cases hneg : n < 0
        · have hser : serNum n = 45 :: natDigits n.natAbs := by
            unfold serNum
            rw [if_pos hneg]
          rw [hser, List.cons_append]
          rw [show parseF (f + 1) PMode.val (45 :: (natDigits n.natAbs ++ rest)) =
            (match parseNum (45 :: (natDigits n.natAbs ++ rest)) with
              | some (m, r) => some (PRes.v (Json.jnum m), r)
              | none => none) from rfl]
          rw [show (45 :: (natDigits n.natAbs ++ rest) : Str) = serNum n ++ rest from by
            rw [hser, List.cons_append]]
          rw [parseNum_ser n rest hb]
        · have hser : serNum n = natDigits n.toNat := by
            unfold serNum
            rw [if_neg hneg]
          obtain ⟨d, t, ht⟩ := List.exists_cons_of_ne_nil
            (natDigitsF_ne_nil (n.toNat + 1) n.toNat (by omega))
          have ht' : natDigits n.toNat = d :: t := ht
          have hd : isDig d = true := by
            refine natDigitsF_all_dig (n.toNat + 1) n.toNat (by omega) d ?_
            rw [ht]
            simp
          have hdb : 48 ≤ d ∧ d ≤ 57 := by
            unfold isDig at hd
            simp only [Bool.and_eq_true, decide_eq_true_eq] at hd
            exact hd
          rw [hser, ht', List.cons_append, parseF.eq_def]
          dsimp only
          rw [skipWs_cons d _ (isJWs_false d (by omega) (by omega) (by omega) (by omega))]
          dsimp only
          rw [if_neg (by omega : ¬d = 123), if_neg (by omega : ¬d = 91),
            if_neg (by omega : ¬d = 34), if_neg (by omega : ¬d = 116),
            if_neg (by omega : ¬d = 102), if_neg (by omega : ¬d = 110),
            if_pos (Or.inr hd : d = 45 ∨ isDig d = true)]
          rw [show (d :: (t ++ rest) : Str) = serNum n ++ rest from by
            rw [hser, ht', List.cons_append]]
          rw [parseNum_ser n rest hb]
      | jstr s =>
        rw [show serVal (Json.jstr s) = 34 :: (serStrBody s ++ [34]) from by
          simp [serVal, serStr]]
        rw [List.cons_append]
        rw [show parseF (f + 1) PMode.val (34 :: ((serStrBody s ++ [34]) ++ rest)) =
          (match parseStr ((serStrBody s ++ [34]) ++ rest) with
            | some (st, r) => some (PRes.v (Json.jstr st), r)
            | none => none) from rfl]
        rw [show (serStrBody s ++ [34]) ++ rest = serStrBody s ++ 34 :: rest from by simp]
        rw [parseStr_ser]
      | jarr xs =>
        rw [show serVal (Json.jarr xs) = 91 :: (serArrIn xs ++ [93]) from by simp [serVal]]
        rw [List.cons_append]
        rw [show parseF (f + 1) PMode.val (91 :: ((serArrIn xs ++ [93]) ++ rest)) =
          (match parseF f PMode.arrBody ((serArrIn xs ++ [93]) ++ rest) with
            | some (PRes.items ys, r) => some (PRes.v (Json.jarr ys), r)
            | _ => none) from rfl]
        rw [show (serArrIn xs ++ [93]) ++ rest = serArrIn xs ++ 93 :: rest from by simp]
        have hfuel : sizeL xs + 1 ≤ f := by
          have h2 : sizeJ (Json.jarr xs) = 2 + sizeL xs := by simp [sizeJ]
          omega
        rw [iha xs rest hfuel]
      | jobj fs =>
        rw [show serVal (Json.jobj fs) = 123 :: (serObjIn fs ++ [125]) from by simp [serVal]]
        rw [List.cons_append]
        rw [show parseF (f + 1) PMode.val (123 :: ((serObjIn fs ++ [125]) ++ rest)) =
          (match parseF f PMode.objBody ((serObjIn fs ++ [125]) ++ rest) with
            | some (PRes.fields gs, r) => some (PRes.v (Json.jobj gs), r)
            | _ => none) from rfl]
        rw [show (serObjIn fs ++ [125]) ++ rest = serObjIn fs ++ 125 :: rest from by simp]
        have hfuel : sizeF fs + 1 ≤ f := by
          have h2 : sizeJ (Json.jobj fs) = 2 + sizeF fs := by simp [sizeJ]
          omega
        rw [iho fs rest hfuel]
    · -- array bodies
      intro xs rest hsz
      cases xs with
      | nil =>
        rw [show serArrIn [] = ([] : Str) from by simp [serArrIn]]
        exact rfl
      | cons x xs' =>
        rw [show serArrIn (x :: xs') = serVal x ++ serArrInMore xs' from by simp [serArrIn]]
        rw [show (serVal x ++ serArrInMore xs') ++ 93 :: rest =
          serVal x ++ (serArrInMore xs' ++ 93 :: rest) from by simp]
        obtain ⟨c, t, hct, hws, h93, h125, h44⟩ := serHead x
        have hL : sizeL (x :: xs') = 1 + sizeJ x + sizeL xs' := by simp [sizeL]
        rw [hct, List.cons_append, parseF.eq_def]
        dsimp only
        rw [skipWs_cons c _ hws]
        dsimp only
        rw [if_neg h93]
        rw [← List.cons_append, ← hct]
        rw [ihv x _ (by omega) (nb_arrInMore xs' rest)]
        dsimp only
        have := sizeJ_pos x
        rw [iham xs' rest (by omega)]
    · -- array continuations
      intro xs rest hsz
      cases xs with
      | nil =>
        rw [show serArrInMore [] = ([] : Str) from by simp [serArrInMore]]
        exact rfl
      | cons x xs' =>
        rw [show serArrInMore (x :: xs') = 44 :: (serVal x ++ serArrInMore xs') from by
          simp [serArrInMore]]
        rw [show (44 :: (serVal x ++ serArrInMore xs') : Str) ++ 93 :: rest =
          44 :: (serVal x ++ (serArrInMore xs' ++ 93 :: rest)) from by simp]
        rw [show parseF (f + 1) PMode.arrMore
            (44 :: (serVal x ++ (serArrInMore xs' ++ 93 :: rest))) =
          (match parseF f PMode.val (serVal x ++ (serArrInMore xs' ++ 93 :: rest)) with
            | some (PRes.v y, r1) =>
              (match parseF f PMode.arrMore r1 with
                | some (PRes.items ys, r2) => some (PRes.items (y :: ys), r2)
                | _ => none)
            | _ => none) from rfl]
        have hL : sizeL (x :: xs') = 1 + sizeJ x + sizeL xs' := by simp [sizeL]
        rw [ihv x _ (by omega) (nb_arrInMore xs' rest)]
        dsimp only
        have := sizeJ_pos x
        rw [iham xs' rest (by omega)]
    · -- object bodies
      intro fs rest hsz
      cases fs with
      | nil =>
        rw [show serObjIn [] = ([] : Str) from by simp [serObjIn]]
        exact rfl
      | cons kv fs' =>
        obtain ⟨k, v⟩ := kv
        rw [show serObjIn ((k, v) :: fs') =
          serStr k ++ (58 :: (serVal v ++ serObjInMore fs')) from by simp [serObjIn]]
        rw [show (serStr k ++ (58 :: (serVal v ++ serObjInMore fs'))) ++ 125 :: rest =
          34 :: (serStrBody k ++ 34 ::
            (58 :: (serVal v ++ (serObjInMore fs' ++ 125 :: rest)))) from by
          simp [serStr]]
        rw [show parseF (f + 1) PMode.objBody (34 :: (serStrBody k ++ 34 ::
            (58 :: (serVal v ++ (serObjInMore fs' ++ 125 :: rest))))) =
          (match parseStr (serStrBody k ++ 34 ::
              (58 :: (serVal v ++ (serObjInMore fs' ++ 125 :: rest)))) with
            | some (k', r1) =>
              (match skipWs r1 with
                | 58 :: r2 =>
                  (match parseF f PMode.val r2 with
                    | some (PRes.v y, r3) =>
                      (match parseF f PMode.objMore r3 with
                        | some (PRes.fields gs, r4) =>
                          some (PRes.fields ((k', y) :: gs), r4)
                        | _ => none)
                    | _ => none)
                | _ => none)
            | none => none) from rfl]
        rw [parseStr_ser]
        dsimp only
        rw [skipWs_cons 58 _ (by decide)]
        norm_num
        have hF : sizeF ((k, v) :: fs') = 1 + sizeJ v + sizeF fs' := by simp [sizeF]
        rw [ihv v _ (by omega) (nb_objInMore fs' rest)]
        dsimp only
        have := sizeJ_pos v
        rw [ihom fs' rest (by omega)]
    · -- object continuations
      intro fs rest hsz
      cases fs with
      | nil =>
        rw [show serObjInMore [] = ([] : Str) from by simp [serObjInMore]]
        exact rfl
      | cons kv fs' =>
        obtain ⟨k, v⟩ := kv
        rw [show serObjInMore ((k, v) :: fs') =
          44 :: (serStr k ++ (58 :: (serVal v ++ serObjInMore fs'))) from by
          simp [serObjInMore]]
        rw [show (44 :: (serStr k ++ (58 :: (serVal v ++ serObjInMore fs'))) : Str) ++
            125 :: rest =
          44 :: (34 :: (serStrBody k ++ 34 ::
            (58 :: (serVal v ++ (serObjInMore fs' ++ 125 :: rest))))) from by
          simp [serStr]]
        rw [show parseF (f + 1) PMode.objMore (44 :: (34 :: (serStrBody k ++ 34 ::
            (58 :: (serVal v ++ (serObjInMore fs' ++ 125 :: rest)))))) =
          (match parseStr (serStrBody k ++ 34 ::
              (58 :: (serVal v ++ (serObjInMore fs' ++ 125 :: rest)))) with
            | some (k', r1) =>
              (match skipWs r1 with
                | 58 :: r2 =>
                  (match parseF f PMode.val r2 with
                    | some (PRes.v y, r3) =>
                      (match parseF f PMode.objMore r3 with
                        | some (PRes.fields gs, r4) =>
                          some (PRes.fields ((k', y) :: gs), r4)
                        | _ => none)
                    | _ => none)
                | _ => none)
            | none => none) from rfl]
        rw [parseStr_ser]
        dsimp only
        rw [skipWs_cons 58 _ (by decide)]
        norm_num
        have hF : sizeF ((k, v) :: fs') = 1 + sizeJ v + sizeF fs' := by simp [sizeF]
        rw [ihv v _ (by omega) (nb_objInMore fs' rest)]
        dsimp only
        have := sizeJ_pos v
        rw [ihom fs' rest (by omega)]

/-- Structural sizes are bounded by twice the serialised length, so the fuel
jsonLoads allots is always sufficient for a serialised value. -/
theorem size_bound : ∀ n : Nat,
    (∀ j : Json, sizeOf j ≤ n → sizeJ j ≤ 2 * (serVal j).length - 1) ∧
    (∀ xs : List Json, sizeOf xs ≤ n →
      sizeL xs ≤ 2 * (serArrIn xs).length + 1 ∧ sizeL xs ≤ 2 * (serArrInMore xs).length) ∧
    (∀ fs : List (Str × Json), sizeOf fs ≤ n →
      sizeF fs ≤ 2 * (serObjIn fs).length + 1 ∧ sizeF fs ≤ 2 * (serObjInMore fs).length) := by
  intro n
  induction n with
  | zero =>
    refine ⟨fun j h => absurd h ?_, fun xs h => absurd h ?_, fun fs h => absurd h ?_⟩
    · cases j <;> simp
    · cases xs <;> simp
    · cases fs <;> simp
  | succ n ih =>
    obtain ⟨ihj, ihl, ihf⟩ := ih
    refine ⟨?_, ?_, ?_⟩
    · intro j hsz
      cases j with
      | jarr xs =>
        have hx : sizeOf xs ≤ n := by
          simp only [Json.jarr.sizeOf_spec] at hsz
          omega
        have hA := (ihl xs hx).1
        have hlen : (serVal (Json.jarr xs)).length = (serArrIn xs).length + 2 := by
          rw [show serVal (Json.jarr xs) = 91 :: (serArrIn xs ++ [93]) from by simp [serVal]]
          simp
        have hs : sizeJ (Json.jarr xs) = 2 + sizeL xs := by simp [sizeJ]
        omega
      | jobj fs =>
        have hx : sizeOf fs ≤ n := by
          simp only [Json.jobj.sizeOf_spec] at hsz
          omega
        have hF := (ihf fs hx).1
        have hlen : (serVal (Json.jobj fs)).length = (serObjIn fs).length + 2 := by
          rw [show serVal (Json.jobj fs) = 123 :: (serObjIn fs ++ [125]) from by simp [serVal]]
          simp
        have hs : sizeJ (Json.jobj fs) = 2 + sizeF fs := by simp [sizeJ]
        omega
      | null =>
        obtain ⟨c, t, hct, _⟩ := serHead Json.null
        have : (serVal Json.null).length = t.length + 1 := by rw [hct]; simp
        have hs : sizeJ Json.null = 1 := by simp [sizeJ]
        omega
      | jbool b =>
        obtain ⟨c, t, hct, _⟩ := serHead (Json.jbool b)
        have : (serVal (Json.jbool b)).length = t.length + 1 := by rw [hct]; simp
        have hs : sizeJ (Json.jbool b) = 1 := by simp [sizeJ]
        omega
      | jnum m =>
        obtain ⟨c, t, hct, _⟩ := serHead (Json.jnum m)
        have : (serVal (Json.jnum m)).length = t.length + 1 := by rw [hct]; simp
        have hs : sizeJ (Json.jnum m) = 1 := by simp [sizeJ]
        omega
      | jstr s =>
        obtain ⟨c, t, hct, _⟩ := serHead (Json.jstr s)
        have : (serVal (Json.jstr s)).length = t.length + 1 := by rw [hct]; simp
        have hs : sizeJ (Json.jstr s) = 1 := by simp [sizeJ]
        omega
    · intro xs hsz
      cases xs with
      | nil =>
        constructor
        · rw [show serArrIn [] = ([] : Str) from by simp [serArrIn]]
          simp [sizeL]
        · rw [show serArrInMore [] = ([] : Str) from by simp [serArrInMore]]
          simp [sizeL]
      | cons x xs' =>
        have hx : sizeOf x ≤ n ∧ sizeOf xs' ≤ n := by
          simp only [List.cons.sizeOf_spec] at hsz
          omega
        have hB := ihj x hx.1
        have hA := (ihl xs' hx.2).2
        obtain ⟨c, t, hct, _⟩ := serHead x
        have hLx : 1 ≤ (serVal x).length := by rw [hct]; simp
        have hs : sizeL (x :: xs') = 1 + sizeJ x + sizeL xs' := by simp [sizeL]
        have hlen1 : (serArrIn (x :: xs')).length =
            (serVal x).length + (serArrInMore xs').length := by
          rw [show serArrIn (x :: xs') = serVal x ++ serArrInMore xs' from by simp [serArrIn]]
          simp
        have hlen2 : (serArrInMore (x :: xs')).length =
            1 + (serVal x).length + (serArrInMore xs').length := by
          rw [show serArrInMore (x :: xs') = 44 :: (serVal x ++ serArrInMore xs') from by
            simp [serArrInMore]]
          simp
          omega
        constructor <;> omega
    · intro fs hsz
      cases fs with
      | nil =>
        constructor
        · rw [show serObjIn [] = ([] : Str) from by simp [serObjIn]]
          simp [sizeF]
        · rw [show serObjInMore [] = ([] : Str) from by simp [serObjInMore]]
          simp [sizeF]
      | cons kv fs' =>
        obtain ⟨k, v⟩ := kv
        have hx : sizeOf v ≤ n ∧ sizeOf fs' ≤ n := by
          simp only [List.cons.sizeOf_spec, Prod.mk.sizeOf_spec] at hsz
          omega
        have hB := ihj v hx.1
        have hF := (ihf fs' hx.2).2
        obtain ⟨c, t, hct, _⟩ := serHead v
        have hLv : 1 ≤ (serVal v).length := by rw [hct]; simp
        have hs : sizeF ((k, v) :: fs') = 1 + sizeJ v + sizeF fs' := by simp [sizeF]
        have hlen1 : (serObjIn ((k, v) :: fs')).length =
            (serStr k).length + 1 + (serVal v).length + (serObjInMore fs').length := by
          rw [show serObjIn ((k, v) :: fs') =
            serStr k ++ (58 :: (serVal v ++ serObjInMore fs')) from by simp [serObjIn]]
          simp
          omega
        have hlen2 : (serObjInMore ((k, v) :: fs')).length =
            1 + (serStr k).length + 1 + (serVal v).length + (serObjInMore fs').length := by
          rw [show serObjInMore ((k, v) :: fs') =
            44 :: (serStr k ++ (58 :: (serVal v ++ serObjInMore fs'))) from by
            simp [serObjInMore]]
          simp
          omega
        constructor <;> omega

/-- json.loads inverts the serialiser. -/
theorem jsonLoads_ser (j : Json) : jsonLoads (serVal j) = some j := by
  unfold jsonLoads
  have hsz : sizeJ j ≤ 2 * (serVal j).length + 2 := by
    have := (size_bound (sizeOf j)).1 j (le_refl _)
    omega
  have h := (rt_master (2 * (serVal j).length + 2)).1 j [] hsz rfl
  rw [List.append_nil] at h
  rw [h]
  rfl

/-- C1 amended: a serialised well-formed object embedded in brace-free prose
or code-fence wrapping round-trips through safe_json_parse, all keys retained,
provided the serialisation contains no backtick (the proviso forced by the
fence-stripping replace calls, see the counterexample). -/
theorem c1_round_trip_amended (fs : List (Str × Json)) (pre post : Str)
    (hpre123 : (123 : Nat) ∉ pre) (hpre125 : (125 : Nat) ∉ pre)
    (hpost123 : (123 : Nat) ∉ post) (hpost125 : (125 : Nat) ∉ post)
    (htick : (96 : Nat) ∉ serVal (Json.jobj fs)) :
    safe_json_parse (pre ++ serVal (Json.jobj fs) ++ post) = Except.ok (Json.jobj fs) := by
  have hsj : serVal (Json.jobj fs) = 123 :: (serObjIn fs ++ [125]) := by simp [serVal]
  have hhead : ∃ t, serVal (Json.jobj fs) = 123 :: t := ⟨serObjIn fs ++ [125], hsj⟩
  have h1 := pyReplace_factor 96 [96, 96, 106, 115, 111, 110] (serVal (Json.jobj fs))
    hhead (by decide) htick pre.length pre post (le_refl _)
  have h2 := pyReplace_factor 96 [96, 96] (serVal (Json.jobj fs))
    hhead (by decide) htick
    (pyReplace pre (96 :: [96, 96, 106, 115, 111, 110]) []).length
    (pyReplace pre (96 :: [96, 96, 106, 115, 111, 110]) [])
    (pyReplace post (96 :: [96, 96, 106, 115, 111, 110]) []) (le_refl _)
  have hA2sub : ∀ c ∈ pyReplace (pyReplace pre (96 :: [96, 96, 106, 115, 111, 110]) [])
      (96 :: [96, 96]) [], c ∈ pre := by
    intro c hc
    have hst1 := pyReplace_del_subset 96 [96, 96]
      (pyReplace pre (96 :: [96, 96, 106, 115, 111, 110]) []).length
      (pyReplace pre (96 :: [96, 96, 106, 115, 111, 110]) []) (le_refl _) c hc
    exact pyReplace_del_subset 96 [96, 96, 106, 115, 111, 110]
      pre.length pre (le_refl _) c hst1
  have hB2sub : ∀ c ∈ pyReplace (pyReplace post (96 :: [96, 96, 106, 115, 111, 110]) [])
      (96 :: [96, 96]) [], c ∈ post := by
    intro c hc
    have hst1 := pyReplace_del_subset 96 [96, 96]
      (pyReplace post (96 :: [96, 96, 106, 115, 111, 110]) []).length
      (pyReplace post (96 :: [96, 96, 106, 115, 111, 110]) []) (le_refl _) c hc
    exact pyReplace_del_subset 96 [96, 96, 106, 115, 111, 110]
      post.length post (le_refl _) c hst1
  have hclean : cleanedOf (pre ++ serVal (Json.jobj fs) ++ post) =
      ((pyReplace (pyReplace pre (96 :: [96, 96, 106, 115, 111, 110]) [])
          (96 :: [96, 96]) []).dropWhile isPySpace) ++
        (123 :: (serObjIn fs ++ [125])) ++
        (((pyReplace (pyReplace post (96 :: [96, 96, 106, 115, 111, 110]) [])
          (96 :: [96, 96]) []).reverse.dropWhile isPySpace).reverse) := by
    unfold cleanedOf
    rw [show lit "```json" = (96 :: [96, 96, 106, 115, 111, 110] : Str) from rfl,
      show lit "```" = (96 :: [96, 96] : Str) from rfl, h1, h2, hsj, pyStrip_factor]
  have hU : (123 : Nat) ∉ (pyReplace (pyReplace pre (96 :: [96, 96, 106, 115, 111, 110]) [])
      (96 :: [96, 96]) []).dropWhile isPySpace := by
    intro hm
    exact hpre123 (hA2sub 123 ((List.dropWhile_sublist _).subset hm))
  have hV : (125 : Nat) ∉ ((pyReplace (pyReplace post (96 :: [96, 96, 106, 115, 111, 110]) [])
      (96 :: [96, 96]) []).reverse.dropWhile isPySpace).reverse := by
    intro hm
    rw [List.mem_reverse] at hm
    have hm2 := (List.dropWhile_sublist _).subset hm
    rw [List.mem_reverse] at hm2
    exact hpost125 (hB2sub 125 hm2)
  have hg := greedy_last (serObjIn fs) _ hV
  have hrs := reSearch_found _ hU (serObjIn fs ++ 125 ::
      (((pyReplace (pyReplace post (96 :: [96, 96, 106, 115, 111, 110]) [])
        (96 :: [96, 96]) []).reverse.dropWhile isPySpace).reverse)) _ hg
  unfold safe_json_parse
  rw [hclean]
  rw [show ((pyReplace (pyReplace pre (96 :: [96, 96, 106, 115, 111, 110]) [])
        (96 :: [96, 96]) []).dropWhile isPySpace) ++
      (123 :: (serObjIn fs ++ [125])) ++
      (((pyReplace (pyReplace post (96 :: [96, 96, 106, 115, 111, 110]) [])
        (96 :: [96, 96]) []).reverse.dropWhile isPySpace).reverse) =
    ((pyReplace (pyReplace pre (96 :: [96, 96, 106, 115, 111, 110]) [])
        (96 :: [96, 96]) []).dropWhile isPySpace) ++
      123 :: (serObjIn fs ++ 125 ::
        (((pyReplace (pyReplace post (96 :: [96, 96, 106, 115, 111, 110]) [])
          (96 :: [96, 96]) []).reverse.dropWhile isPySpace).reverse)) from by simp]
  rw [hrs]
  rw [show (123 :: (serObjIn fs ++ [125]) : Str) = serVal (Json.jobj fs) from hsj.symm]
  dsimp only
  rw [jsonLoads_ser]

/-- Witness for the amended C1: a concrete object with an extra-schema key,
serialised and wrapped in prose, round-trips through safe_json_parse. -/
theorem c1_round_trip_witness :
    safe_json_parse (lit "Here is the result: " ++
        serVal (Json.jobj [([115, 117, 109, 109, 97, 114, 121],
          Json.jstr [83, 116, 114, 111, 110, 103, 32, 102, 105, 116])]) ++
        lit " -- done.") =
      Except.ok (Json.jobj [([115, 117, 109, 109, 97, 114, 121],
        Json.jstr [83, 116, 114, 111, 110, 103, 32, 102, 105, 116])]) := by
  apply c1_round_trip_amended
  · decide
  · decide
  · decide
  · decide
  · have hser : serVal (Json.jobj [([115, 117, 109, 109, 97, 114, 121],
        Json.jstr [83, 116, 114, 111, 110, 103, 32, 102, 105, 116])]) =
        [123, 34, 115, 117, 109, 109, 97, 114, 121, 34, 58, 34, 83, 116, 114, 111, 110,
          103, 32, 102, 105, 116, 34, 125] := by
      simp [serVal, serObjIn, serObjInMore, serStr, serStrBody, escapeChar]
    rw [hser]
    decide
